import Mathlib

/- Verification of the policy comparison core of nuon-ext-policies.

   The Python source (boundaries.py, overlap.py) is shallowly embedded:
   Python strings become lists of characters, Python dicts become
   association lists whose operations mirror dict semantics (insertion
   order preserved, assignment to an existing key updates in place),
   Python sets become duplicate-free lists in first-insertion order. -/

namespace NuonExtPolicies

/-- Python strings are modelled as lists of unicode scalar values. -/
abbrev Str := List Char

/-- ASCII model of Python str.lower applied to one character: the
uppercase letters A..Z (code points 65..90) map to a..z, everything
else is unchanged.  Action strings in IAM policies are ASCII. -/
def lowerChar (c : Char) : Char :=
  if 65 ≤ c.toNat ∧ c.toNat ≤ 90 then Char.ofNat (c.toNat + 32) else c

/-- Model of Python str.lower on a whole string. -/
def lowerStr (s : Str) : Str := s.map lowerChar

/-- Model of Python s.split(sep, 1) for a one-character separator:
returns the part before the first ':' and the part after it, or none
when the string contains no ':'. -/
def splitColon : Str → Option (Str × Str)
  | [] => none
  | c :: cs =>
    if c = ':' then some ([], cs)
    else
      match splitColon cs with
      | some p => some (c :: p.1, p.2)
      | none => none

/-- Embeds normalize_action of boundaries.py: lowercase the service
part before the first ':' and keep the operation suffix verbatim; a
string with no ':' is lowercased entirely. -/
def normalize_action (a : Str) : Str :=
  match splitColon a with
  | some p => lowerStr p.1 ++ ':' :: p.2
  | none => lowerStr a

/- Dictionary model: association lists with Python dict semantics. -/

/-- Lookup in an association list (first matching key, as in a dict
whose keys are unique). -/
def lookupA {α β : Type} [DecidableEq α] : List (α × β) → α → Option β
  | [], _ => none
  | p :: d, k => if p.1 = k then some p.2 else lookupA d k

/-- Key membership test for an association list. -/
def hasKey {α β : Type} [DecidableEq α] (d : List (α × β)) (k : α) : Bool :=
  (lookupA d k).isSome

/-- Replace the value stored at a key, keeping its position, as Python
dict assignment does for an existing key. -/
def updateA {α β : Type} [DecidableEq α] (d : List (α × β)) (k : α) (v : β) :
    List (α × β) :=
  d.map (fun p => if p.1 = k then (k, v) else p)

/-- Python dict assignment d[k] = v: update in place when the key
exists, otherwise append the new binding at the end. -/
def dictSet {α β : Type} [DecidableEq α] (d : List (α × β)) (k : α) (v : β) :
    List (α × β) :=
  if hasKey d k then updateA d k v else d ++ [(k, v)]

/-- Python collections.defaultdict mutation d[k] ← f (d[k]), where a
missing key first receives the default value dflt. -/
def ddUpdate {α β : Type} [DecidableEq α] (d : List (α × β)) (k : α) (dflt : β)
    (f : β → β) : List (α × β) :=
  match lookupA d k with
  | some v => updateA d k (f v)
  | none => d ++ [(k, f dflt)]

/-- Python set.add: append the element unless it is already present. -/
def insertSet {α : Type} [DecidableEq α] (s : List α) (a : α) : List α :=
  if a ∈ s then s else s ++ [a]

/-- Python set(l): fold the elements of a list into a set. -/
def pySet {α : Type} [DecidableEq α] (l : List α) : List α :=
  l.foldl insertSet []

/-- Python set equality between two element collections. -/
def setEqB {α : Type} [DecidableEq α] (l1 l2 : List α) : Bool :=
  l1.all (fun a => decide (a ∈ l2)) && l2.all (fun a => decide (a ∈ l1))

/- Data model: one policy statement as read from a parsed JSON object. -/

/-- The Action field of a statement may be a single string or a list of
strings; a missing field reads as the empty list. -/
inductive ActionField : Type
  | one (a : Str)
  | many (l : List Str)
deriving DecidableEq, Repr

/-- One policy statement: effect (optional, defaults to Allow), actions
and an optional statement identifier (defaults to unnamed). -/
structure Stmt : Type where
  effect : Option Str := none
  action : ActionField := ActionField.many []
  sid : Option Str := none
deriving DecidableEq, Repr

/-- The action list of a statement after the isinstance(str) wrapping
done by both extractors. -/
def Stmt.actionList (s : Stmt) : List Str :=
  match s.action with
  | ActionField.one a => [a]
  | ActionField.many l => l

/-- The effect of a statement, with the stmt.get default Allow. -/
def Stmt.effectD (s : Stmt) : Str := s.effect.getD "Allow".toList

/-- The Sid of a statement, with the stmt.get default unnamed. -/
def Stmt.sidD (s : Stmt) : Str := s.sid.getD "unnamed".toList

/-- Embeds expand_actions of boundaries.py: group the actions of a
statement list by effect, with set semantics per effect bucket. -/
def expand_actions (statements : List Stmt) : List (Str × List Str) :=
  statements.foldl
    (fun acc stmt =>
      stmt.actionList.foldl
        (fun acc2 a => ddUpdate acc2 stmt.effectD [] (fun s => insertSet s a))
        acc)
    []

/-- Embeds extract_actions of overlap.py: map each Sid to set(actions)
of the statement carrying it; a plain dict assignment per statement. -/
def extract_actions (statements : List Stmt) : List (Str × List Str) :=
  statements.foldl
    (fun acc stmt => dictSet acc stmt.sidD (pySet stmt.actionList))
    []

/- Ordering used by Python sorted() on the items of the action map:
tuples compare lexicographically, strings compare by code point.  The
Mathlib linear order on List Char is exactly that lexicographic
order. -/

/-- Strict comparison of two (normalized action, effect) keys the way
Python compares the corresponding string pairs. -/
def keyLT (k1 k2 : Str × Str) : Prop :=
  k1.1 < k2.1 ∨ (k1.1 = k2.1 ∧ k1.2 < k2.2)

/-- Reflexive closure of keyLT; the comparison used when sorting. -/
def keyLE (k1 k2 : Str × Str) : Prop :=
  keyLT k1 k2 ∨ k1 = k2

/-- Sort key of Python sorted(action_map.items()): since dict keys are
unique, only the key component of an item is ever compared. -/
def itemLE {β : Type} (x y : (Str × Str) × β) : Prop := keyLE x.1 y.1

instance keyLT.instDecidable : DecidableRel keyLT := fun k1 k2 => by
  unfold keyLT; infer_instance

instance keyLE.instDecidable : DecidableRel keyLE := fun k1 k2 => by
  unfold keyLE; infer_instance

instance itemLE.instDecidable {β : Type} : DecidableRel (@itemLE β) := fun x y => by
  unfold itemLE; infer_instance

/-- Transitivity of keyLT, stated as a definition so that the order
instances below can stay in the definition part of the file. -/
def keyLT.trans {a b c : Str × Str} (h1 : keyLT a b) (h2 : keyLT b c) : keyLT a c := by
  rcases h1 with h1 | ⟨e1, h1⟩ <;> rcases h2 with h2 | ⟨e2, h2⟩
  · exact Or.inl (lt_trans h1 h2)
  · exact Or.inl (e2 ▸ h1)
  · exact Or.inl (e1 ▸ h2)
  · exact Or.inr ⟨e1.trans e2, lt_trans h1 h2⟩

/-- Irreflexivity of keyLT, stated as a definition for the same
reason. -/
def keyLT.irrefl (a : Str × Str) : ¬ keyLT a a := by
  rintro (h | ⟨_, h⟩) <;> exact lt_irrefl _ h

instance itemLE.instIsTotal {β : Type} : IsTotal ((Str × Str) × β) itemLE where
  total x y := by
    unfold itemLE keyLE keyLT
    rcases lt_trichotomy x.1.1 y.1.1 with h | h | h
    · exact Or.inl (Or.inl (Or.inl h))
    · rcases lt_trichotomy x.1.2 y.1.2 with h2 | h2 | h2
      · exact Or.inl (Or.inl (Or.inr ⟨h, h2⟩))
      · exact Or.inl (Or.inr (Prod.ext h h2))
      · exact Or.inr (Or.inl (Or.inr ⟨h.symm, h2⟩))
    · exact Or.inr (Or.inl (Or.inl h))

instance itemLE.instIsTrans {β : Type} : IsTrans ((Str × Str) × β) itemLE where
  trans x y z h1 h2 := by
    rcases h1 with h1 | e1
    · rcases h2 with h2 | e2
      · exact Or.inl (keyLT.trans h1 h2)
      · exact Or.inl (e2 ▸ h1)
    · show keyLE x.1 z.1
      rw [e1]; exact h2

instance keyLE.instIsTotal : IsTotal (Str × Str) keyLE where
  total x y := by
    unfold keyLE keyLT
    rcases lt_trichotomy x.1 y.1 with h | h | h
    · exact Or.inl (Or.inl (Or.inl h))
    · rcases lt_trichotomy x.2 y.2 with h2 | h2 | h2
      · exact Or.inl (Or.inl (Or.inr ⟨h, h2⟩))
      · exact Or.inl (Or.inr (Prod.ext h h2))
      · exact Or.inr (Or.inl (Or.inr ⟨h.symm, h2⟩))
    · exact Or.inr (Or.inl (Or.inl h))

instance keyLE.instIsTrans : IsTrans (Str × Str) keyLE where
  trans x y z h1 h2 := by
    rcases h1 with h1 | e1
    · rcases h2 with h2 | e2
      · exact Or.inl (keyLT.trans h1 h2)
      · exact Or.inl (e2 ▸ h1)
    · rw [e1]
      exact h2

instance keyLE.instIsAntisymm : IsAntisymm (Str × Str) keyLE where
  antisymm a b h1 h2 := by
    rcases h1 with h1 | e1
    · rcases h2 with h2 | e2
      · exact absurd (keyLT.trans h1 h2) (keyLT.irrefl a)
      · exact e2.symm
    · exact e1

/-- Embeds sorted(action_map.items()) of boundaries.py. -/
def sortItems {β : Type} (m : List ((Str × Str) × β)) : List ((Str × Str) × β) :=
  List.insertionSort itemLE m

/-- One finding of the boundary comparator, mirroring the dict built in
compare_boundaries of boundaries.py. -/
structure Finding : Type where
  action : Str
  normalized : Str
  effect : Str
  present_in : List Str
  missing_from : List Str
  severity : Str
  note : Str
deriving DecidableEq, Repr

/-- Embeds the action-map construction loop of compare_boundaries: for
every boundary, effect bucket and action, record
presence[(normalized, effect)][boundary] = action. -/
def buildActionMap (all_actions : List (Str × List (Str × List Str))) :
    List ((Str × Str) × List (Str × Str)) :=
  all_actions.foldl
    (fun m p =>
      p.2.foldl
        (fun m2 q =>
          q.2.foldl
            (fun m3 a =>
              ddUpdate m3 (normalize_action a, q.1) []
                (fun inner => dictSet inner p.1 a))
            m2)
        m)
    []

/-- The finding record built by the findings loop of
compare_boundaries for one item of the action map. -/
def mkFinding (boundary_names : List Str) (item : (Str × Str) × List (Str × Str)) :
    Finding :=
  let present_names := item.2.map Prod.fst
  let missing_from := boundary_names.filter (fun b => decide (b ∉ present_names))
  let maintenance_only : Bool :=
    decide ("maintenance".toList ∈ present_names ∧
      "provision".toList ∉ present_names ∧ "deprovision".toList ∉ present_names)
  let breakglass_only : Bool := setEqB present_names ["breakglass".toList]
  { action := (item.2.map Prod.snd).headD []
    normalized := item.1.1
    effect := item.1.2
    present_in := present_names
    missing_from := missing_from
    severity :=
      if maintenance_only then "high".toList
      else if breakglass_only then "low".toList
      else "medium".toList
    note :=
      if maintenance_only then
        "Maintenance allows this but provision/deprovision do not!".toList
      else if breakglass_only then
        "Breakglass-only (expected for emergency access)".toList
      else if decide ("provision".toList ∈ missing_from ∨
          "deprovision".toList ∈ missing_from) then
        "Missing from core lifecycle boundaries".toList
      else [] }

/-- Embeds the body of the findings loop of compare_boundaries for one
item of the sorted action map: skip when nothing is missing, otherwise
build the finding record with its severity and note. -/
def findingOf (boundary_names : List Str) (item : (Str × Str) × List (Str × Str)) :
    Option Finding :=
  if boundary_names.filter (fun b => decide (b ∉ item.2.map Prod.fst)) = [] then none
  else some (mkFinding boundary_names item)

/-- Embeds compare_boundaries of boundaries.py: expand each boundary by
effect, build the presence map, then walk the sorted items emitting
findings. -/
def compare_boundaries (boundaries : List (Str × List Stmt)) : List Finding :=
  let all_actions := boundaries.map (fun p => (p.1, expand_actions p.2))
  let action_map := buildActionMap all_actions
  let boundary_names := boundaries.map Prod.fst
  (sortItems action_map).filterMap (findingOf boundary_names)

/-- Embeds the action_sources loop of find_overlaps in overlap.py: for
every policy, Sid and action occurrence, append (policy, sid) to the
per-action source list. -/
def buildSources (policies : List (Str × List (Str × List Str))) :
    List (Str × List (Str × Str)) :=
  policies.foldl
    (fun m p =>
      p.2.foldl
        (fun m2 q =>
          q.2.foldl
            (fun m3 a => ddUpdate m3 a [] (fun l => l ++ [(p.1, q.1)]))
            m2)
        m)
    []

/-- Embeds the nested pair loop of find_overlaps: every pair of source
entries at positions i < j whose policy names differ. -/
def crossPairs : List (Str × Str) → List (Str × Str × Str × Str)
  | [] => []
  | e :: rest =>
      rest.filterMap
        (fun e2 => if e.1 ≠ e2.1 then some (e.1, e.2, e2.1, e2.2) else none)
        ++ crossPairs rest

/-- Embeds the filtering body of find_overlaps for one action and its
source list: more than one source, more than one distinct policy name,
and a non-empty pair list. -/
def overlapEntry (p : Str × List (Str × Str)) :
    Option (Str × List (Str × Str × Str × Str)) :=
  if p.2.length > 1 then
    if (pySet (p.2.map Prod.fst)).length > 1 then
      let pairs := crossPairs p.2
      if pairs ≠ [] then some (p.1, pairs) else none
    else none
  else none

/-- Embeds find_overlaps of overlap.py. -/
def find_overlaps (policies : List (Str × List (Str × List Str))) :
    List (Str × List (Str × Str × Str × Str)) :=
  (buildSources policies).filterMap overlapEntry

/-- All (policy, sid) source entries of one action string, in the
iteration order of the first loop of find_overlaps; the flattened view
of what buildSources accumulates under that action. -/
def occList (policies : List (Str × List (Str × List Str))) (a : Str) :
    List (Str × Str) :=
  policies.flatMap (fun p =>
    p.2.flatMap (fun q =>
      q.2.filterMap (fun a2 => if a2 = a then some (p.1, q.1) else none)))

/-- Combination of a previous defaultdict(list) cell content with newly
appended occurrences: no change when nothing is appended, otherwise the
cell exists and holds the concatenation. -/
def addOcc (prev : Option (List (Str × Str))) (occ : List (Str × Str)) :
    Option (List (Str × Str)) :=
  if occ = [] then prev else some (prev.getD [] ++ occ)

/- Canonical views of findings, used to compare outputs up to list
orderings that depend on dict iteration order. -/

/-- Sort a list of strings lexicographically (canonical set view). -/
def sortStrs (l : List Str) : List Str :=
  List.insertionSort (fun a b => a ≤ b) l

/-- View of a finding that forgets only the internal ordering of the
present_in and missing_from lists. -/
def Finding.orderFree (f : Finding) :
    Str × Str × Str × List Str × List Str × Str × Str :=
  (f.action, f.normalized, f.effect, sortStrs f.present_in,
    sortStrs f.missing_from, f.severity, f.note)

/-- View of a finding that forgets the ordering of present_in and
missing_from and also the representative action string. -/
def Finding.reprFree (f : Finding) :
    Str × Str × List Str × List Str × Str × Str :=
  (f.normalized, f.effect, sortStrs f.present_in, sortStrs f.missing_from,
    f.severity, f.note)

/-- Names stored in the action-map cell of one key, in insertion
order; the empty list when the key is absent. -/
def innerNames (m : List ((Str × Str) × List (Str × Str))) (key : Str × Str) :
    List Str :=
  ((lookupA m key).getD []).map Prod.fst

/-- The representative raw action stored for one boundary name in the
action-map cell of one key. -/
def innerRepr (m : List ((Str × Str) × List (Str × Str))) (key : Str × Str)
    (name : Str) : Option Str :=
  lookupA ((lookupA m key).getD []) name

/-- A boundary holding the key (normalize_action a, effect) somewhere
in its expanded effect buckets; the semantic notion of a boundary
containing an action key. -/
def containsKey (effects : List (Str × List Str)) (key : Str × Str) : Prop :=
  ∃ q ∈ effects, q.1 = key.2 ∧ ∃ a ∈ q.2, normalize_action a = key.1

instance containsKey.instDecidable (effects : List (Str × List Str))
    (key : Str × Str) : Decidable (containsKey effects key) := by
  unfold containsKey; infer_instance

/-- Sort a list of keys with the Python tuple order. -/
def sortKeys (l : List (Str × Str)) : List (Str × Str) :=
  List.insertionSort keyLE l

/-- The boundary names containing a key, in input order. -/
def canonPresent (bs : List (Str × List Stmt)) (key : Str × Str) : List Str :=
  ((bs.map (fun p => (p.1, expand_actions p.2))).filter
    (fun p => decide (containsKey p.2 key))).map Prod.fst

/-- The boundary names not containing a key, in input order. -/
def canonMissing (bs : List (Str × List Stmt)) (key : Str × Str) : List Str :=
  (bs.map Prod.fst).filter (fun b => decide (b ∉ canonPresent bs key))

/-- The severity computed from a presence list, as in mkFinding. -/
def canonSeverity (pn : List Str) : Str :=
  if decide ("maintenance".toList ∈ pn ∧ "provision".toList ∉ pn ∧
      "deprovision".toList ∉ pn) then "high".toList
  else if setEqB pn ["breakglass".toList] then "low".toList
  else "medium".toList

/-- The note computed from presence and missing lists, as in
mkFinding. -/
def canonNote (pn mf : List Str) : Str :=
  if decide ("maintenance".toList ∈ pn ∧ "provision".toList ∉ pn ∧
      "deprovision".toList ∉ pn) then
    "Maintenance allows this but provision/deprovision do not!".toList
  else if setEqB pn ["breakglass".toList] then
    "Breakglass-only (expected for emergency access)".toList
  else if decide ("provision".toList ∈ mf ∨ "deprovision".toList ∈ mf) then
    "Missing from core lifecycle boundaries".toList
  else []

/-- Iteration-order-free canonical image of the finding emitted for a
key, computed directly from the boundary list; used to state and prove
order invariance of the comparator. -/
def canonFinding (bs : List (Str × List Stmt)) (key : Str × Str) :
    Option (Str × Str × List Str × List Str × Str × Str) :=
  if canonMissing bs key = [] then none
  else
    some (key.1, key.2, sortStrs (canonPresent bs key),
      sortStrs (canonMissing bs key), canonSeverity (canonPresent bs key),
      canonNote (canonPresent bs key) (canonMissing bs key))

/- Concrete inputs used by witnesses and counterexamples. -/

/-- A statement allowing the given action strings, with no Sid. -/
def exAllow (acts : List String) : Stmt :=
  { effect := some "Allow".toList, action := ActionField.many (acts.map String.toList) }

/-- A statement with the given Sid and action strings, no effect. -/
def exSid (sid : String) (acts : List String) : Stmt :=
  { sid := some sid.toList, action := ActionField.many (acts.map String.toList) }

/-- The boundary set of the spec's high-severity example: only
maintenance allows s3:PutObject, the other three are empty. -/
def exBoundaries9 : List (Str × List Stmt) :=
  [("provision".toList, []), ("deprovision".toList, []),
   ("maintenance".toList,
     [{ effect := some "Allow".toList,
        action := ActionField.one "s3:PutObject".toList }]),
   ("breakglass".toList, [])]

/-- A boundary whose action list holds two raw spellings of one
normalized key, plus an empty boundary so a finding is emitted. -/
def exBoundaries5 : List (Str × List Stmt) :=
  [("b".toList, [exAllow ["S3:Get", "s3:Get"]]), ("c".toList, [])]

/-- Two boundaries carrying different raw spellings of the same
normalized action, plus an empty boundary. -/
def exBoundaries6a : List (Str × List Stmt) :=
  [("x".toList, [exAllow ["S3:Get"]]), ("y".toList, [exAllow ["s3:Get"]]),
   ("z".toList, [])]

/-- The same associations as exBoundaries6a in a different insertion
order. -/
def exBoundaries6b : List (Str × List Stmt) :=
  [("y".toList, [exAllow ["s3:Get"]]), ("x".toList, [exAllow ["S3:Get"]]),
   ("z".toList, [])]

/-- Two statements sharing the Sid s but declaring different actions. -/
def exPolicy4 : List Stmt := [exSid "s" ["a"], exSid "s" ["b"]]

/-- Two policy documents granting the same action under different
Sids, in extracted form, for the overlap detector. -/
def exPolicies2 : List (Str × List (Str × List Str)) :=
  [("one.json".toList, [("A".toList, ["s3:GetObject".toList])]),
   ("two.json".toList, [("B".toList, ["s3:GetObject".toList])])]

/- Lemmas about the dictionary model. -/

theorem lookupA_append {α β : Type} [DecidableEq α] (d e : List (α × β)) (k : α) :
    lookupA (d ++ e) k = (lookupA d k).or (lookupA e k) := by
  induction d with
  | nil => simp [lookupA]
  | cons p d ih =>
      by_cases h : p.1 = k <;> simp [lookupA, h, ih]

theorem lookupA_updateA {α β : Type} [DecidableEq α] (d : List (α × β)) (k : α) (v : β)
    (k' : α) :
    lookupA (updateA d k v) k' =
      if k' = k then (lookupA d k).map (fun _ => v) else lookupA d k' := by
  induction d with
  | nil => simp [lookupA, updateA]
  | cons p d ih =>
      simp only [updateA, List.map_cons] at *
      by_cases h : p.1 = k
      · by_cases h' : k' = k
        · subst h'; simp [lookupA, h, ih]
        · have hne : ¬ k = k' := fun hh => h' hh.symm
          simp [lookupA, h, hne, ih, h']
      · by_cases h' : p.1 = k'
        · have : ¬ k' = k := fun hh => h (h' ▸ hh)
          simp [lookupA, h, h', this]
        · simp [lookupA, h, h', ih]

theorem lookupA_dictSet {α β : Type} [DecidableEq α] (d : List (α × β)) (k : α) (v : β)
    (k' : α) :
    lookupA (dictSet d k v) k' = if k' = k then some v else lookupA d k' := by
  unfold dictSet hasKey
  cases hl : lookupA d k with
  | some v0 =>
      simp only [hl, Option.isSome_some, if_true]
      rw [lookupA_updateA]
      by_cases h' : k' = k
      · subst h'; simp [hl]
      · simp [h']
  | none =>
      simp only [hl, Option.isSome_none, Bool.false_eq_true, if_false]
      rw [lookupA_append]
      by_cases h' : k' = k
      · subst h'; simp [hl, lookupA]
      · cases hl2 : lookupA d k' with
        | some w => simp [hl2, h']
        | none =>
            have hne : ¬ k = k' := fun hh => h' hh.symm
            simp [hl2, lookupA, hne, h']

theorem lookupA_ddUpdate {α β : Type} [DecidableEq α] (d : List (α × β)) (k : α) (dflt : β)
    (f : β → β) (k' : α) :
    lookupA (ddUpdate d k dflt f) k' =
      if k' = k then some (f ((lookupA d k).getD dflt)) else lookupA d k' := by
  unfold ddUpdate
  cases h : lookupA d k with
  | none =>
      rw [lookupA_append]
      by_cases h' : k' = k
      · subst h'; simp [h, lookupA]
      · cases hl2 : lookupA d k' with
        | some w => simp [hl2, h']
        | none =>
            have hne : ¬ k = k' := fun hh => h' hh.symm
            simp [hl2, lookupA, hne, h']
  | some v =>
      rw [lookupA_updateA]
      by_cases h' : k' = k
      · subst h'; simp [h]
      · simp [h']

theorem lookupA_eq_none_iff {α β : Type} [DecidableEq α] (d : List (α × β)) (k : α) :
    lookupA d k = none ↔ k ∉ d.map Prod.fst := by
  induction d with
  | nil => simp [lookupA]
  | cons p d ih =>
      by_cases h : p.1 = k
      · simp [lookupA, h]
      · simp only [lookupA, if_neg h, ih, List.map_cons, List.mem_cons]
        constructor
        · intro hk hor
          rcases hor with h1 | h1
          · exact h h1.symm
          · exact hk h1
        · intro hk
          exact fun h1 => hk (Or.inr h1)

theorem keys_updateA {α β : Type} [DecidableEq α] (d : List (α × β)) (k : α) (v : β) :
    (updateA d k v).map Prod.fst = d.map Prod.fst := by
  unfold updateA
  rw [List.map_map]
  apply List.map_congr_left
  intro p _
  by_cases h : p.1 = k <;> simp [h]

theorem keys_dictSet {α β : Type} [DecidableEq α] (d : List (α × β)) (k : α) (v : β) :
    (dictSet d k v).map Prod.fst =
      if k ∈ d.map Prod.fst then d.map Prod.fst else d.map Prod.fst ++ [k] := by
  unfold dictSet hasKey
  by_cases h : k ∈ d.map Prod.fst
  · have : (lookupA d k).isSome := by
      cases hl : lookupA d k with
      | none => exact absurd ((lookupA_eq_none_iff d k).mp hl) (by simp [h])
      | some _ => simp
    simp [this, keys_updateA, h]
  · have : lookupA d k = none := (lookupA_eq_none_iff d k).mpr h
    simp [this, h]

theorem keys_ddUpdate {α β : Type} [DecidableEq α] (d : List (α × β)) (k : α) (dflt : β)
    (f : β → β) :
    (ddUpdate d k dflt f).map Prod.fst =
      if k ∈ d.map Prod.fst then d.map Prod.fst else d.map Prod.fst ++ [k] := by
  unfold ddUpdate
  cases hl : lookupA d k with
  | none =>
      have : k ∉ d.map Prod.fst := (lookupA_eq_none_iff d k).mp hl
      simp [this]
  | some v =>
      have : ¬ lookupA d k = none := by simp [hl]
      have hk : k ∈ d.map Prod.fst := by
        by_contra hc
        exact this ((lookupA_eq_none_iff d k).mpr hc)
      simp [keys_updateA, hk]

theorem nodup_keys_ddUpdate {α β : Type} [DecidableEq α] (d : List (α × β)) (k : α)
    (dflt : β) (f : β → β) (h : (d.map Prod.fst).Nodup) :
    ((ddUpdate d k dflt f).map Prod.fst).Nodup := by
  rw [keys_ddUpdate]
  by_cases hk : k ∈ d.map Prod.fst
  · simpa [hk] using h
  · simpa [hk] using List.Nodup.append h (List.nodup_singleton k) (by simpa using hk)

theorem mem_iff_lookupA {α β : Type} [DecidableEq α] (d : List (α × β)) (k : α) (v : β)
    (hn : (d.map Prod.fst).Nodup) : (k, v) ∈ d ↔ lookupA d k = some v := by
  induction d with
  | nil => simp [lookupA]
  | cons p d ih =>
      simp only [List.map_cons, List.nodup_cons] at hn
      by_cases h : p.1 = k
      · constructor
        · intro hm
          rcases List.mem_cons.mp hm with h2 | h2
          · rw [← h2]
            simp [lookupA]
          · have : k ∈ d.map Prod.fst := List.mem_map_of_mem Prod.fst h2
            exact absurd (h ▸ this) hn.1
        · intro h2
          simp only [lookupA, if_pos h, Option.some.injEq] at h2
          have hp : p = (k, v) := Prod.ext h h2
          rw [hp] at *
          exact List.mem_cons_self _ _
      · constructor
        · intro hm
          rcases List.mem_cons.mp hm with h2 | h2
          · exact absurd (congrArg Prod.fst h2).symm h
          · simpa [lookupA, h] using (ih hn.2).mp h2
        · intro h2
          simp only [lookupA, if_neg h] at h2
          exact List.mem_cons_of_mem p ((ih hn.2).mpr h2)

theorem mem_insertSet {α : Type} [DecidableEq α] (s : List α) (a x : α) :
    x ∈ insertSet s a ↔ x ∈ s ∨ x = a := by
  unfold insertSet
  by_cases h : a ∈ s
  · simp only [h, if_true]
    constructor
    · exact Or.inl
    · rintro (h2 | h2)
      · exact h2
      · exact h2 ▸ h
  · simp [h]

theorem nodup_insertSet {α : Type} [DecidableEq α] (s : List α) (a : α) (h : s.Nodup) :
    (insertSet s a).Nodup := by
  unfold insertSet
  by_cases ha : a ∈ s
  · simpa [ha] using h
  · simpa [ha] using List.Nodup.append h (List.nodup_singleton a) (by simpa using ha)

theorem insertSet_eq_self {α : Type} [DecidableEq α] (s : List α) (a : α) (h : a ∈ s) :
    insertSet s a = s := by
  simp [insertSet, h]

/- Lemmas about action normalization, claim C7. -/

theorem char_toNat_ofNat {n : Nat} (h : n < 55296) : (Char.ofNat n).toNat = n := by
  have hv : n.isValidChar := Or.inl h
  simp [Char.ofNat, hv, Char.ofNatAux, Char.toNat, UInt32.toNat]

theorem lowerChar_toNat {c : Char} (h : 65 ≤ c.toNat ∧ c.toNat ≤ 90) :
    (lowerChar c).toNat = c.toNat + 32 := by
  unfold lowerChar
  rw [if_pos h]
  exact char_toNat_ofNat (by omega)

theorem lowerChar_of_not_upper {c : Char} (h : ¬ (65 ≤ c.toNat ∧ c.toNat ≤ 90)) :
    lowerChar c = c := by
  unfold lowerChar
  rw [if_neg h]

theorem lowerChar_idem (c : Char) : lowerChar (lowerChar c) = lowerChar c := by
  by_cases h : 65 ≤ c.toNat ∧ c.toNat ≤ 90
  · have h2 : (lowerChar c).toNat = c.toNat + 32 := lowerChar_toNat h
    apply lowerChar_of_not_upper
    omega
  · rw [lowerChar_of_not_upper h]
    exact lowerChar_of_not_upper h

theorem lowerChar_eq_colon {c : Char} (h : lowerChar c = ':') : c = ':' := by
  by_cases hu : 65 ≤ c.toNat ∧ c.toNat ≤ 90
  · exfalso
    have h1 := lowerChar_toNat hu
    rw [h] at h1
    have h2 : (':').toNat = 58 := by decide
    omega
  · rwa [lowerChar_of_not_upper hu] at h

theorem lowerStr_idem (s : Str) : lowerStr (lowerStr s) = lowerStr s := by
  unfold lowerStr
  rw [List.map_map]
  apply List.map_congr_left
  intro c _
  exact lowerChar_idem c

theorem colon_not_mem_lowerStr {s : Str} (h : ':' ∉ s) : ':' ∉ lowerStr s := by
  intro hm
  rcases List.mem_map.mp hm with ⟨c, hc, he⟩
  exact h (lowerChar_eq_colon he ▸ hc)

theorem splitColon_eq_none_iff (s : Str) : splitColon s = none ↔ ':' ∉ s := by
  induction s with
  | nil => simp [splitColon]
  | cons c cs ih =>
      by_cases h : c = ':'
      · simp [splitColon, h]
      · have hcc : ¬ (':' : Char) = c := fun hh => h hh.symm
        cases hs : splitColon cs with
        | none =>
            have hcs : ':' ∉ cs := ih.mp hs
            simp [splitColon, if_neg h, hs, hcc, hcs]
        | some p =>
            have hmem : ':' ∈ cs := by
              by_contra hc
              have h2 := ih.mpr hc
              rw [h2] at hs
              exact Option.noConfusion hs
            simp [splitColon, if_neg h, hs, hmem]

theorem splitColon_append {pre : Str} (suf : Str) (h : ':' ∉ pre) :
    splitColon (pre ++ ':' :: suf) = some (pre, suf) := by
  induction pre with
  | nil => simp [splitColon]
  | cons c cs ih =>
      have hc : ¬ c = ':' := fun hh => h (hh ▸ List.mem_cons_self c cs)
      have hcs : ':' ∉ cs := fun hh => h (List.mem_cons_of_mem c hh)
      simp [splitColon, hc, ih hcs]

theorem splitColon_some {s p q : Str} (h : splitColon s = some (p, q)) :
    s = p ++ ':' :: q ∧ ':' ∉ p := by
  induction s generalizing p q with
  | nil => exact absurd h (by simp [splitColon])
  | cons c cs ih =>
      by_cases hc : c = ':'
      · simp only [splitColon, if_pos hc, Option.some.injEq, Prod.mk.injEq] at h
        obtain ⟨h1, h2⟩ := h
        subst hc
        rw [← h1, ← h2]
        simp
      · simp only [splitColon, if_neg hc] at h
        cases hs : splitColon cs with
        | none => rw [hs] at h; exact Option.noConfusion h
        | some r =>
            rw [hs] at h
            simp only [Option.some.injEq, Prod.mk.injEq] at h
            obtain ⟨h1, h2⟩ := h
            rcases ih (p := r.1) (q := r.2) (by rw [hs]) with ⟨he, hn⟩
            rw [← h1, ← h2]
            constructor
            · rw [he]; rfl
            · intro hm
              rcases List.mem_cons.mp hm with hm1 | hm1
              · exact hc hm1.symm
              · exact hn hm1

theorem normalize_action_no_colon {a : Str} (h : ':' ∉ a) :
    normalize_action a = lowerStr a := by
  unfold normalize_action
  rw [(splitColon_eq_none_iff a).mpr h]

theorem normalize_action_split {pre : Str} (suf : Str) (h : ':' ∉ pre) :
    normalize_action (pre ++ ':' :: suf) = lowerStr pre ++ ':' :: suf := by
  unfold normalize_action
  rw [splitColon_append suf h]

theorem normalize_action_idem (a : Str) :
    normalize_action (normalize_action a) = normalize_action a := by
  cases hs : splitColon a with
  | none =>
      have hn : ':' ∉ a := (splitColon_eq_none_iff a).mp hs
      rw [normalize_action_no_colon hn,
        normalize_action_no_colon (colon_not_mem_lowerStr hn), lowerStr_idem]
  | some p =>
      rcases splitColon_some hs with ⟨he, hnp⟩
      rw [he, normalize_action_split p.2 hnp,
        normalize_action_split p.2 (colon_not_mem_lowerStr hnp), lowerStr_idem]

/-- Claim C7: normalize_action is total over strings (it is a total
function of the embedding), idempotent, lowercases exactly the part
before the first ':' while keeping the suffix after it verbatim, and
fully lowercases a string containing no ':'. -/
theorem c7_normalize_action_idempotent :
    ∀ (pre suf a : Str),
      (':' ∉ pre →
        normalize_action (pre ++ ':' :: suf) = lowerStr pre ++ ':' :: suf) ∧
      (':' ∉ a → normalize_action a = lowerStr a) ∧
      normalize_action (normalize_action a) = normalize_action a :=
  fun pre suf a =>
    ⟨fun h => normalize_action_split suf h,
     fun h => normalize_action_no_colon h,
     normalize_action_idem a⟩

/- Lemmas about pySet. -/

theorem mem_foldl_insertSet {α : Type} [DecidableEq α] (l acc : List α) (x : α) :
    x ∈ l.foldl insertSet acc ↔ x ∈ acc ∨ x ∈ l := by
  induction l generalizing acc with
  | nil => simp
  | cons a l ih =>
      rw [List.foldl_cons, ih, mem_insertSet]
      constructor
      · rintro ((h | h) | h)
        · exact Or.inl h
        · exact Or.inr (h ▸ List.mem_cons_self a l)
        · exact Or.inr (List.mem_cons_of_mem a h)
      · rintro (h | h)
        · exact Or.inl (Or.inl h)
        · rcases List.mem_cons.mp h with h1 | h1
          · exact Or.inl (Or.inr h1)
          · exact Or.inr h1

theorem mem_pySet {α : Type} [DecidableEq α] (l : List α) (x : α) :
    x ∈ pySet l ↔ x ∈ l := by
  unfold pySet
  rw [mem_foldl_insertSet]
  simp

theorem nodup_foldl_insertSet {α : Type} [DecidableEq α] (l acc : List α)
    (h : acc.Nodup) : (l.foldl insertSet acc).Nodup := by
  induction l generalizing acc with
  | nil => simpa
  | cons a l ih => exact ih _ (nodup_insertSet acc a h)

theorem nodup_pySet {α : Type} [DecidableEq α] (l : List α) : (pySet l).Nodup :=
  nodup_foldl_insertSet l [] List.nodup_nil

/- Extraction per Sid, claim C4: the dict assignment in extract_actions
overwrites, so the last statement carrying a Sid wins. -/

theorem lookupA_extract_foldl (stmts : List Stmt) (acc : List (Str × List Str))
    (sid : Str) :
    lookupA (stmts.foldl (fun a st => dictSet a st.sidD (pySet st.actionList)) acc)
        sid =
      ((stmts.reverse.find? (fun st => decide (st.sidD = sid))).map
        (fun st => pySet st.actionList)).or (lookupA acc sid) := by
  induction stmts generalizing acc with
  | nil => simp
  | cons st rest ih =>
      rw [List.foldl_cons, ih, List.reverse_cons, List.find?_append]
      cases hf : rest.reverse.find? (fun st => decide (st.sidD = sid)) with
      | some st2 => simp
      | none =>
          simp only [Option.none_or]
          by_cases h : st.sidD = sid
          · rw [List.find?_cons_of_pos _ (by simp [h])]
            simp [lookupA_dictSet, h]
          · rw [List.find?_cons_of_neg _ (by simp [h])]
            have hne : ¬ sid = st.sidD := fun hh => h hh.symm
            simp [lookupA_dictSet, hne]

/-- Claim C4, amended: extract_actions maps a Sid to set(actions) of
the LAST statement carrying that Sid (the dict assignment overwrites
earlier statements with the same Sid); statements without a Sid share
the key "unnamed".  The second conjunct records the set semantics of
each stored value. -/
theorem c4_extract_actions_last_sid_wins (stmts : List Stmt) (sid : Str) :
    lookupA (extract_actions stmts) sid =
      (stmts.reverse.find? (fun st => decide (st.sidD = sid))).map
        (fun st => pySet st.actionList) ∧
    ∀ st : Stmt, ∀ x : Str, x ∈ pySet st.actionList ↔ x ∈ st.actionList := by
  constructor
  · unfold extract_actions
    rw [lookupA_extract_foldl]
    simp [lookupA]
  · intro st x
    exact mem_pySet _ _

/-- Counterexample for claim C4 as stated: in a policy whose two
statements both carry Sid s, declaring actions a and b respectively,
the extracted mapping sends s to a set that contains b but not a, so
the per-Sid set does not contain the actions of every statement
carrying that Sid. -/
theorem c4_counterexample :
    (∃ st ∈ exPolicy4, st.sidD = "s".toList ∧ "a".toList ∈ st.actionList) ∧
      lookupA (extract_actions exPolicy4) "s".toList = some ["b".toList] ∧
      "a".toList ∉ (["b".toList] : List Str) := by
  refine ⟨⟨exSid "s" ["a"], by decide, by decide, by decide⟩, by decide, by decide⟩

/- Generic fold preservation. -/

theorem foldl_preserves {α γ : Type} (P : α → Prop) (step : α → γ → α)
    (h : ∀ m x, P m → P (step m x)) :
    ∀ (l : List γ) (m : α), P m → P (l.foldl step m) := by
  intro l
  induction l with
  | nil => intro m hm; exact hm
  | cons x l ih => intro m hm; exact ih _ (h m x hm)

/- Characterization of buildSources, toward claim C2. -/

theorem addOcc_addOcc (prev : Option (List (Str × Str))) (o1 o2 : List (Str × Str)) :
    addOcc prev (o1 ++ o2) = addOcc (addOcc prev o1) o2 := by
  cases o1 with
  | nil => simp [addOcc]
  | cons e o1 =>
      cases o2 with
      | nil => simp [addOcc]
      | cons e2 o2 => simp [addOcc]

theorem lookupA_sourceFold_acts (acts : List Str) (name sid : Str)
    (m : List (Str × List (Str × Str))) (a : Str) :
    lookupA
        (acts.foldl
          (fun m3 a2 => ddUpdate m3 a2 [] (fun l => l ++ [(name, sid)])) m) a =
      addOcc (lookupA m a)
        (acts.filterMap (fun a2 => if a2 = a then some (name, sid) else none)) := by
  induction acts generalizing m with
  | nil => simp [addOcc]
  | cons a2 rest ih =>
      rw [List.foldl_cons, ih]
      by_cases h : a2 = a
      · subst h
        have hfm : (a2 :: rest).filterMap
              (fun a3 => if a3 = a2 then some (name, sid) else none) =
            [(name, sid)] ++
              rest.filterMap (fun a3 => if a3 = a2 then some (name, sid) else none) := by
          simp
        rw [hfm, addOcc_addOcc, lookupA_ddUpdate, if_pos rfl]
        simp [addOcc]
      · have hne : ¬ a = a2 := fun hh => h hh.symm
        have hfm : (a2 :: rest).filterMap
              (fun a3 => if a3 = a then some (name, sid) else none) =
            rest.filterMap (fun a3 => if a3 = a then some (name, sid) else none) := by
          simp [h]
        rw [hfm, lookupA_ddUpdate, if_neg hne]

theorem lookupA_sourceFold_sids (sids : List (Str × List Str)) (name : Str)
    (m : List (Str × List (Str × Str))) (a : Str) :
    lookupA
        (sids.foldl
          (fun m2 q =>
            q.2.foldl
              (fun m3 a2 => ddUpdate m3 a2 [] (fun l => l ++ [(name, q.1)])) m2)
          m) a =
      addOcc (lookupA m a)
        (sids.flatMap (fun q =>
          q.2.filterMap (fun a2 => if a2 = a then some (name, q.1) else none))) := by
  induction sids generalizing m with
  | nil => simp [addOcc]
  | cons q rest ih =>
      rw [List.foldl_cons, ih, List.flatMap_cons, addOcc_addOcc,
        lookupA_sourceFold_acts]

theorem lookupA_buildSources (ps : List (Str × List (Str × List Str))) (a : Str) :
    lookupA (buildSources ps) a = addOcc none (occList ps a) := by
  have gen : ∀ (l : List (Str × List (Str × List Str)))
      (m : List (Str × List (Str × Str))),
      lookupA
          (l.foldl
            (fun m2 p =>
              p.2.foldl
                (fun m3 q =>
                  q.2.foldl
                    (fun m4 a2 => ddUpdate m4 a2 [] (fun ll => ll ++ [(p.1, q.1)]))
                    m3)
                m2)
            m) a =
        addOcc (lookupA m a)
          (l.flatMap (fun p =>
            p.2.flatMap (fun q =>
              q.2.filterMap (fun a2 => if a2 = a then some (p.1, q.1) else none)))) := by
    intro l
    induction l with
    | nil => intro m; simp [addOcc]
    | cons p rest ih =>
        intro m
        rw [List.foldl_cons, ih, List.flatMap_cons, addOcc_addOcc,
          lookupA_sourceFold_sids]
  have h := gen ps []
  unfold buildSources occList
  rw [h]
  rfl

theorem nodup_keys_buildSources (ps : List (Str × List (Str × List Str))) :
    ((buildSources ps).map Prod.fst).Nodup := by
  have h1 : ∀ (name sid : Str) (acts : List Str) (m : List (Str × List (Str × Str))),
      (m.map Prod.fst).Nodup →
      ((acts.foldl (fun m3 a2 => ddUpdate m3 a2 [] (fun l => l ++ [(name, sid)])) m).map
        Prod.fst).Nodup := by
    intro name sid acts m hm
    exact foldl_preserves (fun mm => (mm.map Prod.fst).Nodup)
      (fun m3 a2 => ddUpdate m3 a2 [] (fun l => l ++ [(name, sid)]))
      (fun mm x hmm => nodup_keys_ddUpdate _ _ _ _ hmm) acts m hm
  have h2 : ∀ (name : Str) (sids : List (Str × List Str))
      (m : List (Str × List (Str × Str))),
      (m.map Prod.fst).Nodup →
      ((sids.foldl
        (fun m2 q =>
          q.2.foldl (fun m3 a2 => ddUpdate m3 a2 [] (fun l => l ++ [(name, q.1)])) m2)
        m).map Prod.fst).Nodup := by
    intro name sids m hm
    exact foldl_preserves (fun mm => (mm.map Prod.fst).Nodup)
      (fun m2 q =>
        q.2.foldl (fun m3 a2 => ddUpdate m3 a2 [] (fun l => l ++ [(name, q.1)])) m2)
      (fun mm q hmm => h1 name q.1 q.2 mm hmm) sids m hm
  unfold buildSources
  exact foldl_preserves (fun mm => (mm.map Prod.fst).Nodup)
    (fun m2 p =>
      p.2.foldl
        (fun m3 q =>
          q.2.foldl (fun m4 a2 => ddUpdate m4 a2 [] (fun l => l ++ [(p.1, q.1)])) m3)
        m2)
    (fun mm p hmm => h2 p.1 p.2 mm hmm) ps [] List.nodup_nil

/- Lookup through a key-preserving filterMap, as used by the overlaps
dict construction. -/

theorem lookupA_filterMap_none {α β γ : Type} [DecidableEq α]
    (l : List (α × β)) (g : α × β → Option (α × γ))
    (hg : ∀ p r, g p = some r → r.1 = p.1) (k : α) (hk : k ∉ l.map Prod.fst) :
    lookupA (l.filterMap g) k = none := by
  induction l with
  | nil => simp [lookupA]
  | cons p rest ih =>
      simp only [List.map_cons, List.mem_cons] at hk
      push_neg at hk
      rw [List.filterMap_cons]
      cases hgp : g p with
      | none => exact ih hk.2
      | some r =>
          have : r.1 ≠ k := fun hh => hk.1 ((hg p r hgp ▸ hh).symm)
          simp only [lookupA, if_neg this]
          exact ih hk.2

theorem lookupA_filterMap_keyed {α β γ : Type} [DecidableEq α]
    (l : List (α × β)) (g : α × β → Option (α × γ))
    (hg : ∀ p r, g p = some r → r.1 = p.1) (hn : (l.map Prod.fst).Nodup) (k : α) :
    lookupA (l.filterMap g) k =
      (lookupA l k).bind (fun v => (g (k, v)).map Prod.snd) := by
  induction l with
  | nil => simp [lookupA]
  | cons p rest ih =>
      simp only [List.map_cons, List.nodup_cons] at hn
      rw [List.filterMap_cons]
      by_cases h : p.1 = k
      · have hp : p = (k, p.2) := Prod.ext h rfl
        cases hgp : g p with
        | none =>
            have hgp2 : g (k, p.2) = none := by rw [← hp]; exact hgp
            rw [lookupA_filterMap_none rest g hg k (h ▸ hn.1)]
            simp [lookupA, h, hgp2]
        | some r =>
            have hr1 : r.1 = k := (hg p r hgp).trans h
            have hgp2 : g (k, p.2) = some r := by rw [← hp]; exact hgp
            simp [lookupA, h, hr1, hgp2]
      · cases hgp : g p with
        | none => simp [lookupA, h, ih hn.2]
        | some r =>
            have : r.1 ≠ k := fun hh => h ((hg p r hgp).symm.trans hh)
            simp [lookupA, h, this, ih hn.2]

/- Cross-policy pair generation, toward claim C2. -/

theorem mem_crossPairs (l : List (Str × Str)) (x : Str × Str × Str × Str) :
    x ∈ crossPairs l ↔
      ∃ e1 e2 : Str × Str, [e1, e2].Sublist l ∧ e1.1 ≠ e2.1 ∧
        x = (e1.1, e1.2, e2.1, e2.2) := by
  induction l with
  | nil =>
      constructor
      · intro h
        exact absurd h (by simp [crossPairs])
      · rintro ⟨e1, e2, hs, _, _⟩
        have := List.sublist_nil.mp hs
        exact List.noConfusion this
  | cons e rest ih =>
      simp only [crossPairs, List.mem_append, List.mem_filterMap, ih]
      constructor
      · rintro (⟨e2, he2, hx⟩ | ⟨e1, e2, hs, hne, hx⟩)
        · by_cases h : e.1 ≠ e2.1
          · refine ⟨e, e2, ?_, h, ?_⟩
            · exact List.cons_sublist_cons.mpr (List.singleton_sublist.mpr he2)
            · rw [if_pos h] at hx
              exact (Option.some.injEq _ _ ▸ hx).symm
          · rw [if_neg h] at hx
            exact absurd hx (by simp)
        · exact ⟨e1, e2, List.Sublist.cons e hs, hne, hx⟩
      · rintro ⟨e1, e2, hs, hne, hx⟩
        rcases List.sublist_cons_iff.mp hs with h | ⟨r, hr, hrs⟩
        · exact Or.inr ⟨e1, e2, h, hne, hx⟩
        · have he1 : e1 = e := (List.cons.injEq _ _ _ _ ▸ hr).1
          have hr2 : [e2] = r := (List.cons.injEq _ _ _ _ ▸ hr).2
          left
          refine ⟨e2, List.singleton_sublist.mp (hr2 ▸ hrs), ?_⟩
          rw [if_pos (he1 ▸ hne), hx, he1]

theorem length_gt_one_of_two_mem {α : Type} (l : List α) (a b : α) (ha : a ∈ l)
    (hb : b ∈ l) (hne : a ≠ b) : 1 < l.length := by
  cases l with
  | nil => cases ha
  | cons x t =>
      cases t with
      | nil =>
          have h1 : a = x := by simpa using ha
          have h2 : b = x := by simpa using hb
          exact absurd (h1.trans h2.symm) hne
      | cons y t2 => simp only [List.length_cons]; omega

theorem pySet_length_gt_one_iff {α : Type} [DecidableEq α] (l : List α) :
    1 < (pySet l).length ↔ ∃ a ∈ l, ∃ b ∈ l, a ≠ b := by
  constructor
  · intro h
    cases hp : pySet l with
    | nil => rw [hp] at h; simp at h
    | cons a t =>
        cases t with
        | nil => rw [hp] at h; simp at h
        | cons b t2 =>
            have hnd := nodup_pySet l
            rw [hp, List.nodup_cons] at hnd
            have hne : a ≠ b := fun hh => hnd.1 (hh ▸ List.mem_cons_self b t2)
            have ha : a ∈ pySet l := by rw [hp]; exact List.mem_cons_self _ _
            have hb : b ∈ pySet l := by
              rw [hp]; exact List.mem_cons_of_mem _ (List.mem_cons_self _ _)
            exact ⟨a, (mem_pySet l a).mp ha, b, (mem_pySet l b).mp hb, hne⟩
  · rintro ⟨a, ha, b, hb, hne⟩
    exact length_gt_one_of_two_mem _ a b ((mem_pySet l a).mpr ha)
      ((mem_pySet l b).mpr hb) hne

theorem sublist_pair_of_two_mem {α : Type} (l : List α) (x y : α) (hx : x ∈ l)
    (hy : y ∈ l) (hne : x ≠ y) : [x, y].Sublist l ∨ [y, x].Sublist l := by
  induction l with
  | nil => cases hx
  | cons a rest ih =>
      rcases List.mem_cons.mp hx with h1 | h1
      · rcases List.mem_cons.mp hy with h2 | h2
        · exact absurd (h1.trans h2.symm) hne
        · left
          rw [h1]
          exact List.cons_sublist_cons.mpr (List.singleton_sublist.mpr h2)
      · rcases List.mem_cons.mp hy with h2 | h2
        · right
          rw [h2]
          exact List.cons_sublist_cons.mpr (List.singleton_sublist.mpr h1)
        · rcases ih h1 h2 with h | h
          · exact Or.inl (List.Sublist.cons a h)
          · exact Or.inr (List.Sublist.cons a h)

theorem overlapEntry_characterization (a : Str) (src : List (Str × Str)) :
    ((overlapEntry (a, src)).isSome ↔ ∃ e1 ∈ src, ∃ e2 ∈ src, e1.1 ≠ e2.1) ∧
      ∀ r, overlapEntry (a, src) = some r → r = (a, crossPairs src) := by
  have hpy : 1 < (pySet (src.map Prod.fst)).length ↔
      ∃ e1 ∈ src, ∃ e2 ∈ src, e1.1 ≠ e2.1 := by
    rw [pySet_length_gt_one_iff]
    constructor
    · rintro ⟨n1, hn1, n2, hn2, hne⟩
      rcases List.mem_map.mp hn1 with ⟨e1, he1, rfl⟩
      rcases List.mem_map.mp hn2 with ⟨e2, he2, rfl⟩
      exact ⟨e1, he1, e2, he2, hne⟩
    · rintro ⟨e1, he1, e2, he2, hne⟩
      exact ⟨e1.1, List.mem_map_of_mem _ he1, e2.1, List.mem_map_of_mem _ he2, hne⟩
  by_cases hd : ∃ e1 ∈ src, ∃ e2 ∈ src, e1.1 ≠ e2.1
  · rcases hd with ⟨e1, he1, e2, he2, hne⟩
    have hlen : 1 < src.length :=
      length_gt_one_of_two_mem src e1 e2 he1 he2 (fun hh => hne (hh ▸ rfl))
    have hcp : crossPairs src ≠ [] := by
      rcases sublist_pair_of_two_mem src e1 e2 he1 he2
          (fun hh => hne (hh ▸ rfl)) with h | h
      · intro hnil
        have : (e1.1, e1.2, e2.1, e2.2) ∈ crossPairs src :=
          (mem_crossPairs src _).mpr ⟨e1, e2, h, hne, rfl⟩
        rw [hnil] at this
        cases this
      · intro hnil
        have : (e2.1, e2.2, e1.1, e1.2) ∈ crossPairs src :=
          (mem_crossPairs src _).mpr ⟨e2, e1, h, fun hh => hne hh.symm, rfl⟩
        rw [hnil] at this
        cases this
    have hpy2 : 1 < (pySet (src.map Prod.fst)).length :=
      hpy.mpr ⟨e1, he1, e2, he2, hne⟩
    constructor
    · simp only [overlapEntry, if_pos hlen, if_pos hpy2, if_pos hcp,
        Option.isSome_some, true_iff]
      exact ⟨e1, he1, e2, he2, hne⟩
    · intro r hr
      simp only [overlapEntry, if_pos hlen, if_pos hpy2, if_pos hcp,
        Option.some.injEq] at hr
      exact hr.symm
  · have hpy2 : ¬ 1 < (pySet (src.map Prod.fst)).length := fun hh => hd (hpy.mp hh)
    have hnone : overlapEntry (a, src) = none := by
      unfold overlapEntry
      by_cases hlen : 1 < src.length
      · simp [hlen, hpy2]
      · simp [hlen]
    rw [hnone]
    constructor
    · simp only [Option.isSome_none, Bool.false_eq_true, false_iff]
      exact hd
    · intro r hr
      exact Option.noConfusion hr

theorem overlapEntry_key {p : Str × List (Str × Str)}
    {r : Str × List (Str × Str × Str × Str)} (h : overlapEntry p = some r) :
    r.1 = p.1 := by
  unfold overlapEntry at h
  by_cases h1 : 1 < p.2.length
  · rw [if_pos h1] at h
    by_cases h2 : 1 < (pySet (p.2.map Prod.fst)).length
    · rw [if_pos h2] at h
      by_cases h3 : crossPairs p.2 ≠ []
      · rw [if_pos h3] at h
        rw [← (Option.some.injEq _ _ ▸ h :)]
      · rw [if_neg h3] at h
        exact Option.noConfusion h
    · rw [if_neg h2] at h
      exact Option.noConfusion h
  · rw [if_neg h1] at h
    exact Option.noConfusion h

/-- Claim C2: find_overlaps holds an entry for an action exactly when
the action has source entries from at least two distinct policy names;
the entry's value is the list of all cross-policy pairs of source
entries, characterized as every ordered-position pair of entries of
the source list with distinct policy names; and an action occurring
only within one policy, even under several Sids, yields no entry. -/
theorem c2_find_overlaps_cross_policy_pairs
    (ps : List (Str × List (Str × List Str))) (a : Str) :
    ((lookupA (find_overlaps ps) a).isSome ↔
        ∃ e1 ∈ occList ps a, ∃ e2 ∈ occList ps a, e1.1 ≠ e2.1) ∧
      (∀ prs, lookupA (find_overlaps ps) a = some prs →
        prs = crossPairs (occList ps a) ∧
          ∀ x, x ∈ prs ↔ ∃ e1 e2 : Str × Str, [e1, e2].Sublist (occList ps a) ∧
            e1.1 ≠ e2.1 ∧ x = (e1.1, e1.2, e2.1, e2.2)) ∧
      ((∀ e1 ∈ occList ps a, ∀ e2 ∈ occList ps a, e1.1 = e2.1) →
        lookupA (find_overlaps ps) a = none) := by
  have hmain : lookupA (find_overlaps ps) a =
      (lookupA (buildSources ps) a).bind
        (fun v => (overlapEntry (a, v)).map Prod.snd) := by
    unfold find_overlaps
    exact lookupA_filterMap_keyed _ _ (fun p r h => overlapEntry_key h)
      (nodup_keys_buildSources ps) a
  rw [hmain, lookupA_buildSources]
  cases hocc : occList ps a with
  | nil =>
      simp only [addOcc, if_pos rfl, Option.none_bind]
      refine ⟨by simp, fun prs h => Option.noConfusion h, fun _ => rfl⟩
  | cons e occt =>
      have hocc2 : occList ps a = e :: occt := hocc
      simp only [addOcc, if_neg (by simp : ¬ (e :: occt : List (Str × Str)) = []),
        Option.getD_none, List.nil_append, Option.some_bind]
      rcases overlapEntry_characterization a (e :: occt) with ⟨hiff, hval⟩
      refine ⟨?_, ?_, ?_⟩
      · cases hoe : overlapEntry (a, e :: occt) with
        | none => rw [hoe] at hiff; simpa using hiff
        | some r => rw [hoe] at hiff; simpa using hiff
      · intro prs hprs
        cases hoe : overlapEntry (a, e :: occt) with
        | none => rw [hoe] at hprs; exact Option.noConfusion hprs
        | some r =>
            rw [hoe] at hprs
            have hsome : some r.2 = some prs := by simpa using hprs
            have h2 : r.2 = prs := Option.some.inj hsome
            have hr := hval r hoe
            have hprs2 : prs = crossPairs (e :: occt) := by
              rw [← h2, hr]
            refine ⟨hprs2, ?_⟩
            intro x
            rw [hprs2]
            exact mem_crossPairs (e :: occt) x
      · intro hall
        cases hoe : overlapEntry (a, e :: occt) with
        | none => simp
        | some r =>
            exfalso
            have : (overlapEntry (a, e :: occt)).isSome := by rw [hoe]; rfl
            rcases hiff.mp this with ⟨e1, he1, e2, he2, hne⟩
            exact hne (hall e1 he1 e2 he2)

/-- Witness for C2: two policies granting s3:GetObject under Sids A
and B produce exactly the one cross-document pair. -/
theorem c2_witness :
    [("one.json".toList, "A".toList, "two.json".toList, "B".toList)] =
      crossPairs (occList exPolicies2 "s3:GetObject".toList) :=
  ((c2_find_overlaps_cross_policy_pairs exPolicies2 "s3:GetObject".toList).2.1
    [("one.json".toList, "A".toList, "two.json".toList, "B".toList)] (by decide)).1

/-- Witness for C7 at concrete inputs. -/
theorem c7_witness :
    normalize_action ("S3".toList ++ ':' :: "GetObject".toList) =
        lowerStr "S3".toList ++ ':' :: "GetObject".toList ∧
      normalize_action "IAM".toList = lowerStr "IAM".toList ∧
      normalize_action (normalize_action "AB:CD:EF".toList) =
        normalize_action "AB:CD:EF".toList :=
  ⟨(c7_normalize_action_idempotent "S3".toList "GetObject".toList []).1 (by decide),
   (c7_normalize_action_idempotent [] [] "IAM".toList).2.1 (by decide),
   (c7_normalize_action_idempotent [] [] "AB:CD:EF".toList).2.2⟩

/- Characterization of the action map built by compare_boundaries. -/

theorem insertSet_insertSet {α : Type} [DecidableEq α] (s : List α) (a : α) :
    insertSet (insertSet s a) a = insertSet s a :=
  insertSet_eq_self _ _ ((mem_insertSet s a a).mpr (Or.inr rfl))

theorem innerNames_step (m : List ((Str × Str) × List (Str × Str)))
    (name eff a : Str) (key : Str × Str) :
    innerNames
        (ddUpdate m (normalize_action a, eff) [] (fun inner => dictSet inner name a))
        key =
      if key = (normalize_action a, eff) then insertSet (innerNames m key) name
      else innerNames m key := by
  by_cases h : key = (normalize_action a, eff)
  · subst h
    unfold innerNames
    rw [lookupA_ddUpdate, if_pos rfl, if_pos rfl]
    simp only [Option.getD_some]
    rw [keys_dictSet]
    unfold insertSet
    rfl
  · unfold innerNames
    rw [lookupA_ddUpdate, if_neg h, if_neg h]

theorem innerNames_bucket (acts : List Str) (eff name : Str)
    (m : List ((Str × Str) × List (Str × Str))) (key : Str × Str) :
    innerNames
        (acts.foldl
          (fun m3 a =>
            ddUpdate m3 (normalize_action a, eff) []
              (fun inner => dictSet inner name a))
          m) key =
      if key.2 = eff ∧ ∃ a ∈ acts, normalize_action a = key.1 then
        insertSet (innerNames m key) name
      else innerNames m key := by
  induction acts generalizing m with
  | nil => simp
  | cons a rest ih =>
      rw [List.foldl_cons, ih, innerNames_step]
      by_cases h : key = (normalize_action a, eff)
      · have h1 : key.1 = normalize_action a := congrArg Prod.fst h
        have h2 : key.2 = eff := congrArg Prod.snd h
        have hcons : key.2 = eff ∧ ∃ a2 ∈ a :: rest, normalize_action a2 = key.1 :=
          ⟨h2, a, List.mem_cons_self a rest, h1.symm⟩
        by_cases hr : key.2 = eff ∧ ∃ a2 ∈ rest, normalize_action a2 = key.1
        · rw [if_pos h, if_pos hr, if_pos hcons, insertSet_insertSet]
        · rw [if_pos h, if_neg hr, if_pos hcons]
      · by_cases hr : key.2 = eff ∧ ∃ a2 ∈ rest, normalize_action a2 = key.1
        · have hcons : key.2 = eff ∧ ∃ a2 ∈ a :: rest, normalize_action a2 = key.1 :=
            ⟨hr.1, hr.2.elim fun a2 ha2 =>
              ⟨a2, List.mem_cons_of_mem a ha2.1, ha2.2⟩⟩
          rw [if_neg h, if_pos hr, if_pos hcons]
        · have hcons : ¬ (key.2 = eff ∧ ∃ a2 ∈ a :: rest, normalize_action a2 = key.1) := by
            rintro ⟨he, a2, ha2, hn⟩
            rcases List.mem_cons.mp ha2 with h3 | h3
            · exact h (Prod.ext (h3 ▸ hn.symm) he)
            · exact hr ⟨he, a2, h3, hn⟩
          rw [if_neg h, if_neg hr, if_neg hcons]

theorem innerNames_boundary (effects : List (Str × List Str)) (name : Str)
    (m : List ((Str × Str) × List (Str × Str))) (key : Str × Str) :
    innerNames
        (effects.foldl
          (fun m2 q =>
            q.2.foldl
              (fun m3 a =>
                ddUpdate m3 (normalize_action a, q.1) []
                  (fun inner => dictSet inner name a))
              m2)
          m) key =
      if containsKey effects key then insertSet (innerNames m key) name
      else innerNames m key := by
  induction effects generalizing m with
  | nil => simp [containsKey]
  | cons q rest ih =>
      rw [List.foldl_cons, ih, innerNames_bucket]
      by_cases hq : key.2 = q.1 ∧ ∃ a ∈ q.2, normalize_action a = key.1
      · have hcons : containsKey (q :: rest) key :=
          ⟨q, List.mem_cons_self q rest, hq.1.symm, hq.2⟩
        by_cases hrest : containsKey rest key
        · rw [if_pos hq, if_pos hrest, if_pos hcons, insertSet_insertSet]
        · rw [if_pos hq, if_neg hrest, if_pos hcons]
      · by_cases hrest : containsKey rest key
        · have hcons : containsKey (q :: rest) key := by
            rcases hrest with ⟨q2, hq2, he, ha⟩
            exact ⟨q2, List.mem_cons_of_mem q hq2, he, ha⟩
          rw [if_neg hq, if_pos hrest, if_pos hcons]
        · have hcons : ¬ containsKey (q :: rest) key := by
            rintro ⟨q2, hq2, he, ha⟩
            rcases List.mem_cons.mp hq2 with h3 | h3
            · exact hq ⟨(h3 ▸ he).symm, h3 ▸ ha⟩
            · exact hrest ⟨q2, h3, he, ha⟩
          rw [if_neg hq, if_neg hrest, if_neg hcons]

theorem innerNames_build (l : List (Str × List (Str × List Str))) (key : Str × Str) :
    innerNames (buildActionMap l) key =
      ((l.filter (fun p => decide (containsKey p.2 key))).map Prod.fst).foldl
        insertSet [] := by
  have gen : ∀ (ll : List (Str × List (Str × List Str)))
      (m : List ((Str × Str) × List (Str × Str))),
      innerNames
          (ll.foldl
            (fun m2 p =>
              p.2.foldl
                (fun m3 q =>
                  q.2.foldl
                    (fun m4 a =>
                      ddUpdate m4 (normalize_action a, q.1) []
                        (fun inner => dictSet inner p.1 a))
                    m3)
                m2)
            m) key =
        ((ll.filter (fun p => decide (containsKey p.2 key))).map Prod.fst).foldl
          insertSet (innerNames m key) := by
    intro ll
    induction ll with
    | nil => intro m; simp
    | cons p rest ih =>
        intro m
        rw [List.foldl_cons, ih, innerNames_boundary]
        by_cases h : containsKey p.2 key
        · rw [if_pos h, List.filter_cons_of_pos (by simpa using h), List.map_cons,
            List.foldl_cons]
        · rw [if_neg h, List.filter_cons_of_neg (by simpa using h)]
  have h := gen l []
  unfold buildActionMap
  rw [h]
  rfl

theorem mem_innerNames_build (l : List (Str × List (Str × List Str)))
    (key : Str × Str) (n : Str) :
    n ∈ innerNames (buildActionMap l) key ↔
      ∃ p ∈ l, p.1 = n ∧ containsKey p.2 key := by
  rw [innerNames_build, mem_foldl_insertSet]
  constructor
  · rintro (h | h)
    · cases h
    · rcases List.mem_map.mp h with ⟨p, hp, he⟩
      have h2 := List.mem_filter.mp hp
      exact ⟨p, h2.1, he, by simpa using h2.2⟩
  · rintro ⟨p, hp, he, hc⟩
    exact Or.inr (he ▸ List.mem_map_of_mem _ (List.mem_filter.mpr ⟨hp, by simpa using hc⟩))

theorem foldl_insertSet_sublist {α : Type} [DecidableEq α] :
    ∀ (N acc : List α), (N.foldl insertSet acc).Sublist (acc ++ N) := by
  intro N
  induction N with
  | nil => intro acc; simp
  | cons n rest ih =>
      intro acc
      rw [List.foldl_cons]
      have h1 : (insertSet acc n).Sublist (acc ++ [n]) := by
        unfold insertSet
        by_cases h : n ∈ acc
        · rw [if_pos h]
          exact List.sublist_append_left acc [n]
        · rw [if_neg h]
      have h2 := ih (insertSet acc n)
      refine h2.trans ?_
      have h3 : (insertSet acc n ++ rest).Sublist ((acc ++ [n]) ++ rest) :=
        List.Sublist.append h1 (List.Sublist.refl rest)
      rw [List.append_assoc] at h3
      exact h3

theorem innerNames_build_sublist (l : List (Str × List (Str × List Str)))
    (key : Str × Str) :
    (innerNames (buildActionMap l) key).Sublist (l.map Prod.fst) := by
  rw [innerNames_build]
  have h1 := foldl_insertSet_sublist
    ((l.filter (fun p => decide (containsKey p.2 key))).map Prod.fst) []
  rw [List.nil_append] at h1
  exact h1.trans (List.Sublist.map Prod.fst (List.filter_sublist l))

theorem nodup_innerNames_build (l : List (Str × List (Str × List Str)))
    (key : Str × Str) : (innerNames (buildActionMap l) key).Nodup := by
  rw [innerNames_build]
  exact nodup_foldl_insertSet _ _ List.nodup_nil

theorem foldl_insertSet_of_nodup {α : Type} [DecidableEq α] :
    ∀ (N acc : List α), N.Nodup → (∀ x ∈ N, x ∉ acc) →
      N.foldl insertSet acc = acc ++ N := by
  intro N
  induction N with
  | nil => intro acc _ _; simp
  | cons n rest ih =>
      intro acc hnd hdis
      rw [List.foldl_cons]
      rw [List.nodup_cons] at hnd
      have h1 : insertSet acc n = acc ++ [n] := by
        unfold insertSet
        rw [if_neg (hdis n (List.mem_cons_self n rest))]
      rw [h1, ih (acc ++ [n]) hnd.2 ?_, List.append_assoc]
      · rfl
      · intro x hx
        rw [List.mem_append]
        rintro (h | h)
        · exact hdis x (List.mem_cons_of_mem n hx) h
        · have : x = n := by simpa using h
          exact hnd.1 (this ▸ hx)

theorem innerNames_build_of_nodup (l : List (Str × List (Str × List Str)))
    (key : Str × Str) (hn : (l.map Prod.fst).Nodup) :
    innerNames (buildActionMap l) key =
      (l.filter (fun p => decide (containsKey p.2 key))).map Prod.fst := by
  rw [innerNames_build]
  have hsub : ((l.filter (fun p => decide (containsKey p.2 key))).map Prod.fst).Sublist
      (l.map Prod.fst) := List.Sublist.map Prod.fst (List.filter_sublist l)
  rw [foldl_insertSet_of_nodup _ [] (hn.sublist hsub) (by simp)]
  rfl

theorem dictSet_ne_nil {α β : Type} [DecidableEq α] (d : List (α × β)) (k : α)
    (v : β) : dictSet d k v ≠ [] := by
  unfold dictSet hasKey
  cases hl : lookupA d k with
  | some w =>
      cases d with
      | nil => rw [lookupA] at hl; exact Option.noConfusion hl
      | cons p t => simp [updateA]
  | none => simp

theorem cells_nonempty_build (l : List (Str × List (Str × List Str))) :
    ∀ (key : Str × Str) (inner : List (Str × Str)),
      lookupA (buildActionMap l) key = some inner → inner ≠ [] := by
  have hstep : ∀ (name eff a : Str) (m : List ((Str × Str) × List (Str × Str))),
      (∀ key inner, lookupA m key = some inner → inner ≠ []) →
      (∀ key inner,
        lookupA (ddUpdate m (normalize_action a, eff) []
          (fun i => dictSet i name a)) key = some inner → inner ≠ []) := by
    intro name eff a m hm key inner h
    rw [lookupA_ddUpdate] at h
    by_cases hk : key = (normalize_action a, eff)
    · rw [if_pos hk] at h
      have := Option.some.inj h
      rw [← this]
      exact dictSet_ne_nil _ _ _
    · rw [if_neg hk] at h
      exact hm key inner h
  have h1 : ∀ (name eff : Str) (acts : List Str)
      (m : List ((Str × Str) × List (Str × Str))),
      (∀ key inner, lookupA m key = some inner → inner ≠ []) →
      (∀ key inner,
        lookupA (acts.foldl
          (fun m3 a => ddUpdate m3 (normalize_action a, eff) []
            (fun i => dictSet i name a)) m) key = some inner → inner ≠ []) := by
    intro name eff acts m hm
    exact foldl_preserves (fun mm => ∀ key inner, lookupA mm key = some inner → inner ≠ [])
      (fun m3 a => ddUpdate m3 (normalize_action a, eff) [] (fun i => dictSet i name a))
      (fun mm a hmm => hstep name eff a mm hmm) acts m hm
  have h2 : ∀ (name : Str) (effects : List (Str × List Str))
      (m : List ((Str × Str) × List (Str × Str))),
      (∀ key inner, lookupA m key = some inner → inner ≠ []) →
      (∀ key inner,
        lookupA (effects.foldl
          (fun m2 q =>
            q.2.foldl
              (fun m3 a => ddUpdate m3 (normalize_action a, q.1) []
                (fun i => dictSet i name a)) m2) m) key = some inner → inner ≠ []) := by
    intro name effects m hm
    exact foldl_preserves (fun mm => ∀ key inner, lookupA mm key = some inner → inner ≠ [])
      (fun m2 q =>
        q.2.foldl
          (fun m3 a => ddUpdate m3 (normalize_action a, q.1) []
            (fun i => dictSet i name a)) m2)
      (fun mm q hmm => h1 name q.1 q.2 mm hmm) effects m hm
  unfold buildActionMap
  exact foldl_preserves (fun mm => ∀ key inner, lookupA mm key = some inner → inner ≠ [])
    (fun m2 p =>
      p.2.foldl
        (fun m3 q =>
          q.2.foldl
            (fun m4 a => ddUpdate m4 (normalize_action a, q.1) []
              (fun i => dictSet i p.1 a)) m3) m2)
    (fun mm p hmm => h2 p.1 p.2 mm hmm) l []
    (fun key inner h => Option.noConfusion h)

theorem nodup_keys_buildActionMap (l : List (Str × List (Str × List Str))) :
    ((buildActionMap l).map Prod.fst).Nodup := by
  have h1 : ∀ (name eff : Str) (acts : List Str)
      (m : List ((Str × Str) × List (Str × Str))),
      (m.map Prod.fst).Nodup →
      ((acts.foldl
        (fun m3 a => ddUpdate m3 (normalize_action a, eff) []
          (fun i => dictSet i name a)) m).map Prod.fst).Nodup := by
    intro name eff acts m hm
    exact foldl_preserves (fun mm => (mm.map Prod.fst).Nodup)
      (fun m3 a => ddUpdate m3 (normalize_action a, eff) [] (fun i => dictSet i name a))
      (fun mm a hmm => nodup_keys_ddUpdate _ _ _ _ hmm) acts m hm
  have h2 : ∀ (name : Str) (effects : List (Str × List Str))
      (m : List ((Str × Str) × List (Str × Str))),
      (m.map Prod.fst).Nodup →
      ((effects.foldl
        (fun m2 q =>
          q.2.foldl
            (fun m3 a => ddUpdate m3 (normalize_action a, q.1) []
              (fun i => dictSet i name a)) m2) m).map Prod.fst).Nodup := by
    intro name effects m hm
    exact foldl_preserves (fun mm => (mm.map Prod.fst).Nodup)
      (fun m2 q =>
        q.2.foldl
          (fun m3 a => ddUpdate m3 (normalize_action a, q.1) []
            (fun i => dictSet i name a)) m2)
      (fun mm q hmm => h1 name q.1 q.2 mm hmm) effects m hm
  unfold buildActionMap
  exact foldl_preserves (fun mm => (mm.map Prod.fst).Nodup)
    (fun m2 p =>
      p.2.foldl
        (fun m3 q =>
          q.2.foldl
            (fun m4 a => ddUpdate m4 (normalize_action a, q.1) []
              (fun i => dictSet i p.1 a)) m3) m2)
    (fun mm p hmm => h2 p.1 p.2 mm hmm) l [] List.nodup_nil

theorem hasKey_build_iff (l : List (Str × List (Str × List Str))) (key : Str × Str) :
    hasKey (buildActionMap l) key = true ↔ ∃ p ∈ l, containsKey p.2 key := by
  constructor
  · intro h
    unfold hasKey at h
    cases hl : lookupA (buildActionMap l) key with
    | none => rw [hl] at h; exact Bool.noConfusion h
    | some inner =>
        have hne := cells_nonempty_build l key inner hl
        have hin : innerNames (buildActionMap l) key = inner.map Prod.fst := by
          unfold innerNames
          rw [hl]
          rfl
        cases inner with
        | nil => exact absurd rfl hne
        | cons e t =>
            have hmem : e.1 ∈ innerNames (buildActionMap l) key := by
              rw [hin]
              exact List.mem_cons_self _ _
            rcases (mem_innerNames_build l key e.1).mp hmem with ⟨p, hp, _, hc⟩
            exact ⟨p, hp, hc⟩
  · rintro ⟨p, hp, hc⟩
    have hmem : p.1 ∈ innerNames (buildActionMap l) key :=
      (mem_innerNames_build l key p.1).mpr ⟨p, hp, rfl, hc⟩
    unfold innerNames at hmem
    cases hl : lookupA (buildActionMap l) key with
    | none => rw [hl] at hmem; cases hmem
    | some inner =>
        unfold hasKey
        rw [hl]
        rfl

theorem mem_compare_iff (bs : List (Str × List Stmt)) (f : Finding) :
    f ∈ compare_boundaries bs ↔
      ∃ item, item ∈ buildActionMap (bs.map (fun p => (p.1, expand_actions p.2))) ∧
        findingOf (bs.map Prod.fst) item = some f := by
  unfold compare_boundaries sortItems
  rw [List.mem_filterMap]
  constructor
  · rintro ⟨item, hi, hf⟩
    exact ⟨item, (List.perm_insertionSort itemLE _).mem_iff.mp hi, hf⟩
  · rintro ⟨item, hi, hf⟩
    exact ⟨item, (List.perm_insertionSort itemLE _).mem_iff.mpr hi, hf⟩

theorem findingOf_some_iff (names : List Str) (item : (Str × Str) × List (Str × Str))
    (f : Finding) :
    findingOf names item = some f ↔
      names.filter (fun b => decide (b ∉ item.2.map Prod.fst)) ≠ [] ∧
        f = mkFinding names item := by
  unfold findingOf
  by_cases h : names.filter (fun b => decide (b ∉ item.2.map Prod.fst)) = []
  · rw [if_pos h]
    constructor
    · intro hh
      exact Option.noConfusion hh
    · rintro ⟨hne, _⟩
      exact absurd h hne
  · rw [if_neg h]
    constructor
    · intro hh
      exact ⟨h, (Option.some.inj hh).symm⟩
    · rintro ⟨_, hf⟩
      rw [hf]

theorem allActs_keys (bs : List (Str × List Stmt)) :
    ((bs.map (fun p => (p.1, expand_actions p.2))).map Prod.fst) = bs.map Prod.fst := by
  rw [List.map_map]
  rfl

theorem nodup_fst_unique {α β : Type} {l : List (α × β)} (hn : (l.map Prod.fst).Nodup)
    {p q : α × β} (hp : p ∈ l) (hq : q ∈ l) (he : p.1 = q.1) : p = q := by
  induction l with
  | nil => cases hp
  | cons x rest ih =>
      rw [List.map_cons, List.nodup_cons] at hn
      rcases List.mem_cons.mp hp with h1 | h1
      · rcases List.mem_cons.mp hq with h2 | h2
        · rw [h1, h2]
        · exfalso
          apply hn.1
          rw [← h1, he]
          exact List.mem_map_of_mem Prod.fst h2
      · rcases List.mem_cons.mp hq with h2 | h2
        · exfalso
          apply hn.1
          rw [← h2, ← he]
          exact List.mem_map_of_mem Prod.fst h1
        · exact ih hn.2 h1 h2

/-- Bundles the facts available about any finding emitted by
compare_boundaries: it arises from an action-map item whose cell is
the finding's present_in source. -/
theorem compare_shape (bs : List (Str × List Stmt)) (f : Finding)
    (hf : f ∈ compare_boundaries bs) :
    ∃ item : (Str × Str) × List (Str × Str),
      item ∈ buildActionMap (bs.map (fun p => (p.1, expand_actions p.2))) ∧
      f = mkFinding (bs.map Prod.fst) item ∧
      (bs.map Prod.fst).filter (fun b => decide (b ∉ item.2.map Prod.fst)) ≠ [] ∧
      item.2.map Prod.fst =
        innerNames (buildActionMap (bs.map (fun p => (p.1, expand_actions p.2)))) item.1 ∧
      item.2 ≠ [] := by
  rcases (mem_compare_iff bs f).mp hf with ⟨item, hitem, hfo⟩
  rcases (findingOf_some_iff _ _ _).mp hfo with ⟨hne, hfeq⟩
  have hnk := nodup_keys_buildActionMap (bs.map (fun p => (p.1, expand_actions p.2)))
  have hitem2 : (item.1, item.2) ∈
      buildActionMap (bs.map (fun p => (p.1, expand_actions p.2))) := hitem
  have hlk := (mem_iff_lookupA _ item.1 item.2 hnk).mp hitem2
  refine ⟨item, hitem, hfeq, hne, ?_, cells_nonempty_build _ item.1 item.2 hlk⟩
  unfold innerNames
  rw [hlk]
  rfl

/-- Membership of a boundary name in a finding's present_in list is
exactly semantic containment of the finding's key by that boundary. -/
theorem present_in_iff (bs : List (Str × List Stmt)) (f : Finding)
    (hf : f ∈ compare_boundaries bs) (b : Str) :
    b ∈ f.present_in ↔
      ∃ p ∈ bs, p.1 = b ∧ containsKey (expand_actions p.2) (f.normalized, f.effect) := by
  rcases compare_shape bs f hf with ⟨item, hitem, hfeq, hne, hinner, hcell⟩
  have hpres : f.present_in = item.2.map Prod.fst := by rw [hfeq]; rfl
  have hkey : (f.normalized, f.effect) = item.1 := by rw [hfeq]; rfl
  rw [hpres, hinner, hkey, mem_innerNames_build]
  constructor
  · rintro ⟨p, hp, he, hc⟩
    rcases List.mem_map.mp hp with ⟨p0, hp0, hpe⟩
    refine ⟨p0, hp0, ?_, ?_⟩
    · rw [← he, ← hpe]
    · have : p.2 = expand_actions p0.2 := by rw [← hpe]
      rw [← this]
      exact hc
  · rintro ⟨p0, hp0, he, hc⟩
    exact ⟨(p0.1, expand_actions p0.2), List.mem_map_of_mem _ hp0, he, hc⟩

/-- Shared partition facts about present_in and missing_from of any
emitted finding. -/
theorem present_missing_partition (bs : List (Str × List Stmt)) (f : Finding)
    (hf : f ∈ compare_boundaries bs) :
    f.present_in ≠ [] ∧
      (∀ b, ¬ (b ∈ f.present_in ∧ b ∈ f.missing_from)) ∧
      (∀ b, (b ∈ f.present_in ∨ b ∈ f.missing_from) ↔ b ∈ bs.map Prod.fst) := by
  rcases compare_shape bs f hf with ⟨item, hitem, hfeq, hne, hinner, hcell⟩
  have hpres : f.present_in = item.2.map Prod.fst := by rw [hfeq]; rfl
  have hmiss : f.missing_from =
      (bs.map Prod.fst).filter (fun b => decide (b ∉ item.2.map Prod.fst)) := by
    rw [hfeq]; rfl
  refine ⟨?_, ?_, ?_⟩
  · rw [hpres]
    intro hc
    apply hcell
    cases h : item.2 with
    | nil => rfl
    | cons e t => rw [h] at hc; exact List.noConfusion hc
  · intro b hb
    rcases hb with ⟨hbp, hbm⟩
    rw [hmiss] at hbm
    have h1 := List.mem_filter.mp hbm
    rw [hpres] at hbp
    have h2 : b ∉ item.2.map Prod.fst := by simpa using h1.2
    exact h2 hbp
  · intro b
    constructor
    · rintro (hb | hb)
      · rw [hpres, hinner] at hb
        have hsub := innerNames_build_sublist
          (bs.map (fun p => (p.1, expand_actions p.2))) item.1
        rw [allActs_keys] at hsub
        exact hsub.mem hb
      · rw [hmiss] at hb
        exact (List.mem_filter.mp hb).1
    · intro hb
      by_cases hbp : b ∈ item.2.map Prod.fst
      · exact Or.inl (hpres ▸ hbp)
      · refine Or.inr ?_
        rw [hmiss]
        exact List.mem_filter.mpr ⟨hb, by simpa using hbp⟩

/-- Claim C10: in every emitted finding, present_in is non-empty,
present_in and missing_from are disjoint, and together they cover
exactly the boundary names supplied in the input mapping. -/
theorem c10_present_missing_partition (bs : List (Str × List Stmt)) (f : Finding)
    (hf : f ∈ compare_boundaries bs) :
    f.present_in ≠ [] ∧
      (∀ b, ¬ (b ∈ f.present_in ∧ b ∈ f.missing_from)) ∧
      (∀ b, (b ∈ f.present_in ∨ b ∈ f.missing_from) ↔ b ∈ bs.map Prod.fst) :=
  present_missing_partition bs f hf

/-- Witness for C10 at the spec's concrete example. -/
theorem c10_witness :
    ∃ f : Finding, f ∈ compare_boundaries exBoundaries9 ∧
      (f.present_in ≠ [] ∧
        (∀ b, ¬ (b ∈ f.present_in ∧ b ∈ f.missing_from)) ∧
        (∀ b, (b ∈ f.present_in ∨ b ∈ f.missing_from) ↔
          b ∈ exBoundaries9.map Prod.fst)) := by
  refine ⟨Finding.mk "s3:PutObject".toList "s3:PutObject".toList "Allow".toList
    ["maintenance".toList]
    ["provision".toList, "deprovision".toList, "breakglass".toList]
    "high".toList
    "Maintenance allows this but provision/deprovision do not!".toList,
    ?_, ?_⟩
  · decide
  · exact c10_present_missing_partition exBoundaries9 _ (by decide)

/-- Claim C9: present_in and missing_from enumerate boundary names as
order-preserving subsequences of the caller-supplied name order, and
the spec's concrete example yields exactly one high finding with
missing_from in input order. -/
theorem c9_input_order_and_example :
    (∀ (bs : List (Str × List Stmt)) (f : Finding), f ∈ compare_boundaries bs →
      f.present_in.Sublist (bs.map Prod.fst) ∧
        f.missing_from.Sublist (bs.map Prod.fst)) ∧
      compare_boundaries exBoundaries9 =
        [Finding.mk "s3:PutObject".toList "s3:PutObject".toList "Allow".toList
          ["maintenance".toList]
          ["provision".toList, "deprovision".toList, "breakglass".toList]
          "high".toList
          "Maintenance allows this but provision/deprovision do not!".toList] := by
  constructor
  · intro bs f hf
    rcases compare_shape bs f hf with ⟨item, hitem, hfeq, hne, hinner, hcell⟩
    have hpres : f.present_in = item.2.map Prod.fst := by rw [hfeq]; rfl
    have hmiss : f.missing_from =
        (bs.map Prod.fst).filter (fun b => decide (b ∉ item.2.map Prod.fst)) := by
      rw [hfeq]; rfl
    constructor
    · rw [hpres, hinner]
      have hsub := innerNames_build_sublist
        (bs.map (fun p => (p.1, expand_actions p.2))) item.1
      rw [allActs_keys] at hsub
      exact hsub
    · rw [hmiss]
      exact List.filter_sublist _
  · decide

/-- Witness for C9 applying its general conjunct at the concrete
example. -/
theorem c9_witness :
    ∃ f : Finding, f ∈ compare_boundaries exBoundaries9 ∧
      f.present_in.Sublist (exBoundaries9.map Prod.fst) ∧
      f.missing_from.Sublist (exBoundaries9.map Prod.fst) := by
  refine ⟨Finding.mk "s3:PutObject".toList "s3:PutObject".toList "Allow".toList
    ["maintenance".toList]
    ["provision".toList, "deprovision".toList, "breakglass".toList]
    "high".toList
    "Maintenance allows this but provision/deprovision do not!".toList, ?_, ?_⟩
  · decide
  · exact c9_input_order_and_example.1 exBoundaries9 _ (by decide)

/- Severity classification, claim C1. -/

theorem setEqB_iff {α : Type} [DecidableEq α] (l1 l2 : List α) :
    setEqB l1 l2 = true ↔ ∀ a, a ∈ l1 ↔ a ∈ l2 := by
  unfold setEqB
  rw [Bool.and_eq_true, List.all_eq_true, List.all_eq_true]
  constructor
  · rintro ⟨h1, h2⟩ a
    constructor
    · intro ha
      simpa using h1 a ha
    · intro ha
      simpa using h2 a ha
  · intro h
    constructor
    · intro a ha
      simpa using (h a).mp ha
    · intro a ha
      simpa using (h a).mpr ha

theorem mkFinding_severity_iff (names : List Str)
    (item : (Str × Str) × List (Str × Str)) :
    (((mkFinding names item).severity = "high".toList ↔
      ("maintenance".toList ∈ item.2.map Prod.fst ∧
        "provision".toList ∉ item.2.map Prod.fst ∧
        "deprovision".toList ∉ item.2.map Prod.fst)) ∧
    ((mkFinding names item).severity = "low".toList ↔
      (¬ ("maintenance".toList ∈ item.2.map Prod.fst ∧
          "provision".toList ∉ item.2.map Prod.fst ∧
          "deprovision".toList ∉ item.2.map Prod.fst) ∧
        ∀ b, b ∈ item.2.map Prod.fst ↔ b = "breakglass".toList)) ∧
    ((mkFinding names item).severity = "medium".toList ↔
      (¬ ("maintenance".toList ∈ item.2.map Prod.fst ∧
          "provision".toList ∉ item.2.map Prod.fst ∧
          "deprovision".toList ∉ item.2.map Prod.fst) ∧
        ¬ ∀ b, b ∈ item.2.map Prod.fst ↔ b = "breakglass".toList))) := by
  have hsev : (mkFinding names item).severity =
      (if decide ("maintenance".toList ∈ item.2.map Prod.fst ∧
          "provision".toList ∉ item.2.map Prod.fst ∧
          "deprovision".toList ∉ item.2.map Prod.fst) then "high".toList
        else if setEqB (item.2.map Prod.fst) ["breakglass".toList] then "low".toList
        else "medium".toList) := rfl
  have hbg : setEqB (item.2.map Prod.fst) ["breakglass".toList] = true ↔
      ∀ b, b ∈ item.2.map Prod.fst ↔ b = "breakglass".toList := by
    rw [setEqB_iff]
    constructor
    · intro h b
      rw [h b]
      simp
    · intro h b
      rw [h b]
      simp
  by_cases hm : "maintenance".toList ∈ item.2.map Prod.fst ∧
      "provision".toList ∉ item.2.map Prod.fst ∧
      "deprovision".toList ∉ item.2.map Prod.fst
  · rw [hsev]
    rw [if_pos (by simpa using hm)]
    refine ⟨⟨fun _ => hm, fun _ => rfl⟩, ?_, ?_⟩
    · constructor
      · intro h
        exact absurd h (by decide)
      · rintro ⟨hnm, _⟩
        exact absurd hm hnm
    · constructor
      · intro h
        exact absurd h (by decide)
      · rintro ⟨hnm, _⟩
        exact absurd hm hnm
  · rw [hsev, if_neg (by simpa using hm)]
    by_cases hb : setEqB (item.2.map Prod.fst) ["breakglass".toList] = true
    · rw [if_pos hb]
      refine ⟨?_, ⟨fun _ => ⟨hm, hbg.mp hb⟩, fun _ => rfl⟩, ?_⟩
      · constructor
        · intro h
          exact absurd h (by decide)
        · intro hmm
          exact absurd hmm hm
      · constructor
        · intro h
          exact absurd h (by decide)
        · rintro ⟨_, hnb⟩
          exact absurd (hbg.mp hb) hnb
    · rw [if_neg hb]
      refine ⟨?_, ?_, ?_⟩
      · constructor
        · intro h
          exact absurd h (by decide)
        · intro hmm
          exact absurd hmm hm
      · constructor
        · intro h
          exact absurd h (by decide)
        · rintro ⟨_, hball⟩
          exact absurd (hbg.mpr hball) hb
      · constructor
        · intro _
          exact ⟨hm, fun hball => hb (hbg.mpr hball)⟩
        · intro _
          rfl

/-- Claim C1: a finding's severity is high exactly when maintenance is
among the boundaries containing its key while provision and
deprovision are not; otherwise low exactly when the containing set is
exactly breakglass; otherwise medium.  The present_in field is
precisely the list of containing boundaries, and when the supplied
names include neither maintenance nor breakglass every finding is
medium (and the comparator is a total function, raising no error). -/
theorem c1_severity_classification (bs : List (Str × List Stmt)) (f : Finding)
    (hf : f ∈ compare_boundaries bs) :
    ((f.severity = "high".toList ↔
      ("maintenance".toList ∈ f.present_in ∧ "provision".toList ∉ f.present_in ∧
        "deprovision".toList ∉ f.present_in)) ∧
    (f.severity = "low".toList ↔
      (¬ ("maintenance".toList ∈ f.present_in ∧ "provision".toList ∉ f.present_in ∧
          "deprovision".toList ∉ f.present_in) ∧
        ∀ b, b ∈ f.present_in ↔ b = "breakglass".toList)) ∧
    (f.severity = "medium".toList ↔
      (¬ ("maintenance".toList ∈ f.present_in ∧ "provision".toList ∉ f.present_in ∧
          "deprovision".toList ∉ f.present_in) ∧
        ¬ ∀ b, b ∈ f.present_in ↔ b = "breakglass".toList))) ∧
    (∀ b, b ∈ f.present_in ↔
      ∃ p ∈ bs, p.1 = b ∧ containsKey (expand_actions p.2) (f.normalized, f.effect)) ∧
    (("maintenance".toList ∉ bs.map Prod.fst ∧
        "breakglass".toList ∉ bs.map Prod.fst) →
      f.severity = "medium".toList) := by
  rcases compare_shape bs f hf with ⟨item, hitem, hfeq, hne, hinner, hcell⟩
  have hpres : f.present_in = item.2.map Prod.fst := by rw [hfeq]; rfl
  have hiff := mkFinding_severity_iff (bs.map Prod.fst) item
  refine ⟨?_, present_in_iff bs f hf, ?_⟩
  · have hp2 : (mkFinding (bs.map Prod.fst) item).present_in = item.2.map Prod.fst := rfl
    rw [hfeq, hp2]
    exact hiff
  · rintro ⟨hnm, hnb⟩
    have hsub : ∀ b, b ∈ f.present_in → b ∈ bs.map Prod.fst := by
      intro b hb
      exact ((present_missing_partition bs f hf).2.2 b).mp (Or.inl hb)
    have h1 : ¬ ("maintenance".toList ∈ f.present_in ∧
        "provision".toList ∉ f.present_in ∧
        "deprovision".toList ∉ f.present_in) := by
      rintro ⟨hmm, _, _⟩
      exact hnm (hsub _ hmm)
    have h2 : ¬ ∀ b, b ∈ f.present_in ↔ b = "breakglass".toList := by
      intro hball
      apply hnb
      apply hsub
      have hpne := (present_missing_partition bs f hf).1
      cases hp : f.present_in with
      | nil => exact absurd hp hpne
      | cons e t =>
          have he : e ∈ f.present_in := by
            rw [hp]
            exact List.mem_cons_self _ _
          have hebg : e = "breakglass".toList := (hball e).mp he
          rw [← hebg]
          exact List.mem_cons_self _ _
    rw [hpres] at h1 h2
    rw [hfeq]
    exact hiff.2.2.mpr ⟨h1, h2⟩

/-- Witness for C1 at the spec's concrete example. -/
theorem c1_witness :
    ∃ f : Finding, f ∈ compare_boundaries exBoundaries9 ∧
      (f.severity = "high".toList ↔
        ("maintenance".toList ∈ f.present_in ∧
          "provision".toList ∉ f.present_in ∧
          "deprovision".toList ∉ f.present_in)) := by
  refine ⟨Finding.mk "s3:PutObject".toList "s3:PutObject".toList "Allow".toList
    ["maintenance".toList]
    ["provision".toList, "deprovision".toList, "breakglass".toList]
    "high".toList
    "Maintenance allows this but provision/deprovision do not!".toList, ?_, ?_⟩
  · decide
  · exact (c1_severity_classification exBoundaries9 _ (by decide)).1.1

/-- Claim C3: every emitted finding has a non-empty missing_from; an
empty boundary mapping yields no findings; a finding exists for a key
exactly when some boundary contains it and some boundary does not; and
a boundary with zero statements (an empty action set) appears in the
missing_from of every emitted finding. -/
theorem c3_finding_iff_missing_nonempty (bs : List (Str × List Stmt))
    (key : Str × Str) :
    (∀ f ∈ compare_boundaries bs, f.missing_from ≠ []) ∧
    compare_boundaries [] = [] ∧
    ((bs.map Prod.fst).Nodup →
      ((∃ f ∈ compare_boundaries bs, f.normalized = key.1 ∧ f.effect = key.2) ↔
        ((∃ p ∈ bs, containsKey (expand_actions p.2) key) ∧
          ∃ p ∈ bs, ¬ containsKey (expand_actions p.2) key))) ∧
    ((bs.map Prod.fst).Nodup → ∀ n, (n, ([] : List Stmt)) ∈ bs →
      ∀ f ∈ compare_boundaries bs, n ∈ f.missing_from) := by
  have hmne : ∀ f ∈ compare_boundaries bs, f.missing_from ≠ [] := by
    intro f hf
    rcases compare_shape bs f hf with ⟨item, _, hfeq, hne, _, _⟩
    have hmiss : f.missing_from =
        (bs.map Prod.fst).filter (fun b => decide (b ∉ item.2.map Prod.fst)) := by
      rw [hfeq]; rfl
    rw [hmiss]
    exact hne
  refine ⟨hmne, rfl, ?_, ?_⟩
  · intro hnd
    constructor
    · rintro ⟨f, hf, hn1, hn2⟩
      have hkey : (f.normalized, f.effect) = key := Prod.ext hn1 hn2
      constructor
      · have hpne := (present_missing_partition bs f hf).1
        cases hp : f.present_in with
        | nil => exact absurd hp hpne
        | cons e t =>
            have he : e ∈ f.present_in := by
              rw [hp]
              exact List.mem_cons_self _ _
            rcases (present_in_iff bs f hf e).mp he with ⟨p, hpmem, _, hc⟩
            rw [hkey] at hc
            exact ⟨p, hpmem, hc⟩
      · have hm := hmne f hf
        cases hmm : f.missing_from with
        | nil => exact absurd hmm hm
        | cons e t =>
            have hbm : e ∈ f.missing_from := by
              rw [hmm]
              exact List.mem_cons_self _ _
            have hen : e ∈ bs.map Prod.fst :=
              ((present_missing_partition bs f hf).2.2 e).mp (Or.inr hbm)
            rcases List.mem_map.mp hen with ⟨p, hp, hpe⟩
            refine ⟨p, hp, ?_⟩
            intro hc
            have hcp : p.1 ∈ f.present_in := by
              apply (present_in_iff bs f hf p.1).mpr
              rw [hkey]
              exact ⟨p, hp, rfl, hc⟩
            rw [hpe] at hcp
            exact (present_missing_partition bs f hf).2.1 e ⟨hcp, hbm⟩
    · rintro ⟨⟨p, hp, hc⟩, ⟨p2, hp2, hnc⟩⟩
      have hk : hasKey (buildActionMap (bs.map (fun q => (q.1, expand_actions q.2))))
          key = true :=
        (hasKey_build_iff _ key).mpr
          ⟨(p.1, expand_actions p.2), List.mem_map_of_mem _ hp, hc⟩
      unfold hasKey at hk
      cases hl : lookupA (buildActionMap (bs.map (fun q => (q.1, expand_actions q.2))))
          key with
      | none => rw [hl] at hk; exact Bool.noConfusion hk
      | some inner =>
          have hitem : (key, inner) ∈
              buildActionMap (bs.map (fun q => (q.1, expand_actions q.2))) :=
            (mem_iff_lookupA _ key inner (nodup_keys_buildActionMap _)).mpr hl
          have hinner : inner.map Prod.fst =
              innerNames (buildActionMap (bs.map (fun q => (q.1, expand_actions q.2))))
                key := by
            unfold innerNames
            rw [hl]
            rfl
          have hnp : p2.1 ∉ inner.map Prod.fst := by
            intro hmem
            rw [hinner] at hmem
            rcases (mem_innerNames_build _ key p2.1).mp hmem with ⟨p3, hp3, hp3e, hc3⟩
            rcases List.mem_map.mp hp3 with ⟨q, hq, hqe⟩
            have hq1 : q.1 = p2.1 := by
              rw [← hp3e, ← hqe]
            have hqp2 : q = p2 := nodup_fst_unique hnd hq hp2 hq1
            apply hnc
            have he2 : p3.2 = expand_actions q.2 := by rw [← hqe]
            rw [← hqp2]
            rw [← he2]
            exact hc3
          have hmne2 : (bs.map Prod.fst).filter
              (fun b => decide (b ∉ inner.map Prod.fst)) ≠ [] := by
            intro hnil
            have hmem : p2.1 ∈ (bs.map Prod.fst).filter
                (fun b => decide (b ∉ inner.map Prod.fst)) :=
              List.mem_filter.mpr ⟨List.mem_map_of_mem _ hp2, by simpa using hnp⟩
            rw [hnil] at hmem
            cases hmem
          refine ⟨mkFinding (bs.map Prod.fst) (key, inner), ?_, rfl, rfl⟩
          exact (mem_compare_iff bs _).mpr
            ⟨(key, inner), hitem, (findingOf_some_iff _ _ _).mpr ⟨hmne2, rfl⟩⟩
  · intro hnd n hn f hf
    have hnames : n ∈ bs.map Prod.fst := List.mem_map_of_mem Prod.fst hn
    have hnp : n ∉ f.present_in := by
      intro hmem
      rcases (present_in_iff bs f hf n).mp hmem with ⟨p, hp, hpe, hc⟩
      have hpn : p = (n, ([] : List Stmt)) := nodup_fst_unique hnd hp hn (by rw [hpe])
      rw [hpn] at hc
      have hexp : expand_actions ([] : List Stmt) = [] := rfl
      rcases hc with ⟨q, hq, _⟩
      rw [hexp] at hq
      cases hq
    rcases ((present_missing_partition bs f hf).2.2 n).mpr hnames with h | h
    · exact absurd h hnp
    · exact h

/-- Witness for C3 at the spec's concrete example. -/
theorem c3_witness :
    (∀ f ∈ compare_boundaries exBoundaries9, f.missing_from ≠ []) ∧
      ∃ f ∈ compare_boundaries exBoundaries9,
        f.normalized = "s3:PutObject".toList ∧ f.effect = "Allow".toList := by
  constructor
  · exact (c3_finding_iff_missing_nonempty exBoundaries9
      ("s3:PutObject".toList, "Allow".toList)).1
  · exact ((c3_finding_iff_missing_nonempty exBoundaries9
      ("s3:PutObject".toList, "Allow".toList)).2.2.1 (by decide)).mpr
      (by decide)

/-- Claim C8: the findings list is strictly ascending in the
lexicographic order of the pair (normalized_action, effect); the
comparator is a pure function, so its output is identical across runs
on the same input. -/
theorem c8_findings_sorted (bs : List (Str × List Stmt)) :
    List.Pairwise
      (fun f g : Finding => keyLT (f.normalized, f.effect) (g.normalized, g.effect))
      (compare_boundaries bs) := by
  unfold compare_boundaries sortItems
  rw [List.pairwise_filterMap]
  have hs : List.Sorted itemLE
      (List.insertionSort itemLE
        (buildActionMap (bs.map (fun p => (p.1, expand_actions p.2))))) :=
    List.sorted_insertionSort itemLE _
  have hperm := List.perm_insertionSort itemLE
    (buildActionMap (bs.map (fun p => (p.1, expand_actions p.2))))
  have hnd : ((List.insertionSort itemLE
      (buildActionMap (bs.map (fun p => (p.1, expand_actions p.2))))).map
        Prod.fst).Nodup :=
    ((hperm.map Prod.fst).nodup_iff).mpr (nodup_keys_buildActionMap _)
  have hne : List.Pairwise (fun x y : (Str × Str) × List (Str × Str) => x.1 ≠ y.1)
      (List.insertionSort itemLE
        (buildActionMap (bs.map (fun p => (p.1, expand_actions p.2))))) :=
    List.pairwise_map.mp hnd
  have hcomb := List.Pairwise.and hs hne
  refine hcomb.imp ?_
  rintro x y ⟨hle, hneq⟩ f hf g hg
  rcases (findingOf_some_iff _ _ _).mp (Option.mem_def.mp hf) with ⟨_, hfeq⟩
  rcases (findingOf_some_iff _ _ _).mp (Option.mem_def.mp hg) with ⟨_, hgeq⟩
  have hfkey : (f.normalized, f.effect) = x.1 := by rw [hfeq]; rfl
  have hgkey : (g.normalized, g.effect) = y.1 := by rw [hgeq]; rfl
  rw [hfkey, hgkey]
  rcases hle with h | h
  · exact h
  · exact absurd h hneq

/- Representative retention, claim C5. -/

theorem innerRepr_step (m : List ((Str × Str) × List (Str × Str)))
    (name eff a : Str) (key : Str × Str) :
    innerRepr
        (ddUpdate m (normalize_action a, eff) [] (fun inner => dictSet inner name a))
        key name =
      if key = (normalize_action a, eff) then some a
      else innerRepr m key name := by
  unfold innerRepr
  rw [lookupA_ddUpdate]
  by_cases h : key = (normalize_action a, eff)
  · rw [if_pos h, if_pos h]
    simp only [Option.getD_some]
    rw [lookupA_dictSet, if_pos rfl]
  · rw [if_neg h, if_neg h]

/-- Claim C5, amended: for each boundary and key, the PresenceMap
retains the LAST raw action string (in iteration order) that
normalizes to the key — each dict assignment overwrites the previous
representative, so the first-encountered string is not kept. -/
theorem c5_presence_last_write_wins (acts : List Str) (eff name : Str)
    (m : List ((Str × Str) × List (Str × Str))) (key : Str × Str) :
    innerRepr
        (acts.foldl
          (fun m3 a =>
            ddUpdate m3 (normalize_action a, eff) []
              (fun inner => dictSet inner name a))
          m) key name =
      (acts.reverse.find?
        (fun a => decide ((normalize_action a, eff) = key))).or
        (innerRepr m key name) := by
  induction acts generalizing m with
  | nil => simp
  | cons a rest ih =>
      rw [List.foldl_cons, ih, List.reverse_cons, List.find?_append]
      rw [Option.or_assoc]
      congr 1
      rw [innerRepr_step]
      by_cases h : key = (normalize_action a, eff)
      · simp [List.find?, h]
      · have h2 : ¬ (normalize_action a, eff) = key := fun hh => h hh.symm
        simp [List.find?, h, h2]

/-- Counterexample for claim C5 as stated: in boundary b the raw
spellings S3:Get then s3:Get are iterated in that order and both
normalize to the key (s3:Get, Allow), yet the emitted finding reports
the last-encountered string s3:Get as representative, not the
first-encountered S3:Get. -/
theorem c5_counterexample :
    expand_actions [exAllow ["S3:Get", "s3:Get"]] =
        [("Allow".toList, ["S3:Get".toList, "s3:Get".toList])] ∧
      normalize_action "S3:Get".toList = normalize_action "s3:Get".toList ∧
      (compare_boundaries exBoundaries5).map (fun f => f.action) =
        ["s3:Get".toList] ∧
      "s3:Get".toList ≠ "S3:Get".toList := by
  refine ⟨by decide, by decide, by decide, by decide⟩

/- Iteration-order invariance, claim C6. -/

theorem hasKey_iff_mem {α β : Type} [DecidableEq α] (d : List (α × β)) (k : α) :
    hasKey d k = true ↔ k ∈ d.map Prod.fst := by
  unfold hasKey
  constructor
  · intro h
    by_contra hc
    rw [(lookupA_eq_none_iff d k).mpr hc] at h
    exact Bool.noConfusion h
  · intro h
    cases hl : lookupA d k with
    | none => exact absurd ((lookupA_eq_none_iff d k).mp hl) (by simpa using h)
    | some v => rfl

theorem sortStrs_perm_eq {l1 l2 : List Str} (h : l1.Perm l2) :
    sortStrs l1 = sortStrs l2 := by
  unfold sortStrs
  exact List.eq_of_perm_of_sorted
    ((List.perm_insertionSort _ l1).trans (h.trans (List.perm_insertionSort _ l2).symm))
    (List.sorted_insertionSort _ l1) (List.sorted_insertionSort _ l2)

theorem sortItems_keys (m : List ((Str × Str) × List (Str × Str))) :
    (sortItems m).map Prod.fst = sortKeys (m.map Prod.fst) := by
  unfold sortItems sortKeys
  exact List.eq_of_perm_of_sorted
    (((List.perm_insertionSort itemLE m).map Prod.fst).trans
      (List.perm_insertionSort keyLE (m.map Prod.fst)).symm)
    (List.pairwise_map.mpr (List.sorted_insertionSort itemLE m))
    (List.sorted_insertionSort keyLE (m.map Prod.fst))

theorem mem_keys_build_iff (bs : List (Str × List Stmt)) (key : Str × Str) :
    key ∈ (buildActionMap (bs.map (fun p => (p.1, expand_actions p.2)))).map Prod.fst ↔
      ∃ p ∈ bs, containsKey (expand_actions p.2) key := by
  rw [← hasKey_iff_mem, hasKey_build_iff]
  constructor
  · rintro ⟨p, hp, hc⟩
    rcases List.mem_map.mp hp with ⟨q, hq, hqe⟩
    refine ⟨q, hq, ?_⟩
    have : p.2 = expand_actions q.2 := by rw [← hqe]
    rw [← this]
    exact hc
  · rintro ⟨q, hq, hc⟩
    exact ⟨(q.1, expand_actions q.2), List.mem_map_of_mem _ hq, hc⟩

theorem build_keys_perm {bs1 bs2 : List (Str × List Stmt)} (hperm : bs1.Perm bs2) :
    ((buildActionMap (bs1.map (fun p => (p.1, expand_actions p.2)))).map Prod.fst).Perm
      ((buildActionMap (bs2.map (fun p => (p.1, expand_actions p.2)))).map Prod.fst) := by
  apply (List.perm_ext_iff_of_nodup (nodup_keys_buildActionMap _)
    (nodup_keys_buildActionMap _)).mpr
  intro key
  rw [mem_keys_build_iff, mem_keys_build_iff]
  constructor
  · rintro ⟨p, hp, hc⟩
    exact ⟨p, hperm.mem_iff.mp hp, hc⟩
  · rintro ⟨p, hp, hc⟩
    exact ⟨p, hperm.mem_iff.mpr hp, hc⟩

theorem sortKeys_perm_eq {l1 l2 : List (Str × Str)} (h : l1.Perm l2) :
    sortKeys l1 = sortKeys l2 := by
  unfold sortKeys
  exact List.eq_of_perm_of_sorted
    ((List.perm_insertionSort keyLE l1).trans
      (h.trans (List.perm_insertionSort keyLE l2).symm))
    (List.sorted_insertionSort keyLE l1) (List.sorted_insertionSort keyLE l2)

theorem compare_reprFree (bs : List (Str × List Stmt))
    (hn : (bs.map Prod.fst).Nodup) :
    (compare_boundaries bs).map Finding.reprFree =
      ((sortItems (buildActionMap (bs.map (fun p => (p.1, expand_actions p.2))))).map
        Prod.fst).filterMap (canonFinding bs) := by
  unfold compare_boundaries
  rw [List.map_filterMap, List.filterMap_map]
  apply List.filterMap_congr
  intro item hitem
  have hitem2 : item ∈ buildActionMap (bs.map (fun p => (p.1, expand_actions p.2))) := by
    unfold sortItems at hitem
    exact (List.perm_insertionSort itemLE _).mem_iff.mp hitem
  have hitem3 : (item.1, item.2) ∈
      buildActionMap (bs.map (fun p => (p.1, expand_actions p.2))) := hitem2
  have hlk := (mem_iff_lookupA _ item.1 item.2 (nodup_keys_buildActionMap _)).mp hitem3
  have hpn : item.2.map Prod.fst = canonPresent bs item.1 := by
    have h1 : innerNames (buildActionMap (bs.map (fun p => (p.1, expand_actions p.2))))
        item.1 = item.2.map Prod.fst := by
      unfold innerNames
      rw [hlk]
      rfl
    rw [← h1]
    unfold canonPresent
    apply innerNames_build_of_nodup
    rw [allActs_keys]
    exact hn
  show (findingOf (bs.map Prod.fst) item).map Finding.reprFree = canonFinding bs item.1
  unfold findingOf canonFinding canonMissing
  rw [← hpn]
  by_cases hmf : (bs.map Prod.fst).filter
      (fun b => decide (b ∉ item.2.map Prod.fst)) = []
  · rw [if_pos hmf, if_pos hmf]
    rfl
  · rw [if_neg hmf, if_neg hmf]
    rfl

theorem canonPresent_perm {bs1 bs2 : List (Str × List Stmt)} (hperm : bs1.Perm bs2)
    (key : Str × Str) : (canonPresent bs1 key).Perm (canonPresent bs2 key) := by
  unfold canonPresent
  exact ((hperm.map (fun p => (p.1, expand_actions p.2))).filter
    (fun p => decide (containsKey p.2 key))).map Prod.fst

theorem canonMissing_perm {bs1 bs2 : List (Str × List Stmt)} (hperm : bs1.Perm bs2)
    (key : Str × Str) : (canonMissing bs1 key).Perm (canonMissing bs2 key) := by
  unfold canonMissing
  have hstep : (bs2.map Prod.fst).filter
      (fun b => decide (b ∉ canonPresent bs2 key)) =
      (bs2.map Prod.fst).filter (fun b => decide (b ∉ canonPresent bs1 key)) := by
    apply List.filter_congr
    intro b _
    rw [decide_eq_decide]
    exact not_congr (canonPresent_perm hperm key).mem_iff.symm
  rw [hstep]
  exact (hperm.map Prod.fst).filter _

theorem canonSeverity_congr {pn1 pn2 : List Str} (h : ∀ b, b ∈ pn1 ↔ b ∈ pn2) :
    canonSeverity pn1 = canonSeverity pn2 := by
  unfold canonSeverity
  have hdm : decide ("maintenance".toList ∈ pn1 ∧ "provision".toList ∉ pn1 ∧
      "deprovision".toList ∉ pn1) =
      decide ("maintenance".toList ∈ pn2 ∧ "provision".toList ∉ pn2 ∧
        "deprovision".toList ∉ pn2) := by
    rw [decide_eq_decide]
    exact and_congr (h _) (and_congr (not_congr (h _)) (not_congr (h _)))
  have hbg : setEqB pn1 ["breakglass".toList] = setEqB pn2 ["breakglass".toList] := by
    cases h1 : setEqB pn1 ["breakglass".toList] with
    | true =>
        have h3 := (setEqB_iff pn1 _).mp h1
        have h4 : setEqB pn2 ["breakglass".toList] = true :=
          (setEqB_iff pn2 _).mpr (fun a => ((h a).symm.trans (h3 a)))
        rw [h4]
    | false =>
        cases h2 : setEqB pn2 ["breakglass".toList] with
        | true =>
            have h3 := (setEqB_iff pn2 _).mp h2
            have h4 : setEqB pn1 ["breakglass".toList] = true :=
              (setEqB_iff pn1 _).mpr (fun a => ((h a).trans (h3 a)))
            rw [h1] at h4
            exact Bool.noConfusion h4
        | false => rfl
  rw [hdm, hbg]

theorem canonNote_congr {pn1 pn2 mf1 mf2 : List Str}
    (h : ∀ b, b ∈ pn1 ↔ b ∈ pn2) (hm : ∀ b, b ∈ mf1 ↔ b ∈ mf2) :
    canonNote pn1 mf1 = canonNote pn2 mf2 := by
  unfold canonNote
  have hdm : decide ("maintenance".toList ∈ pn1 ∧ "provision".toList ∉ pn1 ∧
      "deprovision".toList ∉ pn1) =
      decide ("maintenance".toList ∈ pn2 ∧ "provision".toList ∉ pn2 ∧
        "deprovision".toList ∉ pn2) := by
    rw [decide_eq_decide]
    exact and_congr (h _) (and_congr (not_congr (h _)) (not_congr (h _)))
  have hbg : setEqB pn1 ["breakglass".toList] = setEqB pn2 ["breakglass".toList] := by
    cases h1 : setEqB pn1 ["breakglass".toList] with
    | true =>
        have h3 := (setEqB_iff pn1 _).mp h1
        have h4 : setEqB pn2 ["breakglass".toList] = true :=
          (setEqB_iff pn2 _).mpr (fun a => ((h a).symm.trans (h3 a)))
        rw [h4]
    | false =>
        cases h2 : setEqB pn2 ["breakglass".toList] with
        | true =>
            have h3 := (setEqB_iff pn2 _).mp h2
            have h4 : setEqB pn1 ["breakglass".toList] = true :=
              (setEqB_iff pn1 _).mpr (fun a => ((h a).trans (h3 a)))
            rw [h1] at h4
            exact Bool.noConfusion h4
        | false => rfl
  have hpv : decide ("provision".toList ∈ mf1 ∨ "deprovision".toList ∈ mf1) =
      decide ("provision".toList ∈ mf2 ∨ "deprovision".toList ∈ mf2) := by
    rw [decide_eq_decide]
    exact or_congr (hm _) (hm _)
  rw [hdm, hbg, hpv]

theorem canonFinding_perm {bs1 bs2 : List (Str × List Stmt)} (hperm : bs1.Perm bs2)
    (key : Str × Str) : canonFinding bs1 key = canonFinding bs2 key := by
  have hpn := canonPresent_perm hperm key
  have hmf := canonMissing_perm hperm key
  unfold canonFinding
  by_cases h1 : canonMissing bs1 key = []
  · have h2 : canonMissing bs2 key = [] := by
      rw [h1] at hmf
      exact hmf.symm.eq_nil
    rw [if_pos h1, if_pos h2]
  · have h2 : canonMissing bs2 key ≠ [] := by
      intro hnil
      rw [hnil] at hmf
      exact h1 hmf.eq_nil
    rw [if_neg h1, if_neg h2]
    rw [sortStrs_perm_eq hpn, sortStrs_perm_eq hmf,
      canonSeverity_congr (fun b => hpn.mem_iff),
      canonNote_congr (fun b => hpn.mem_iff) (fun b => hmf.mem_iff)]

/-- Claim C6, amended: for two boundary mappings with the same
(name, document) associations in different insertion orders, the
findings correspond one to one (in the same sorted order) and agree on
normalized action, effect, severity, note and the SETS present_in and
missing_from; only the internal ordering of those two lists and the
representative action string may differ (the representative is taken
from the first boundary in iteration order, so reordering can change
it — see the counterexample). -/
theorem c6_order_invariance_up_to_representative
    (bs1 bs2 : List (Str × List Stmt)) (hperm : bs1.Perm bs2)
    (hn1 : (bs1.map Prod.fst).Nodup) :
    (compare_boundaries bs1).map Finding.reprFree =
      (compare_boundaries bs2).map Finding.reprFree := by
  have hn2 : (bs2.map Prod.fst).Nodup := ((hperm.map Prod.fst).nodup_iff).mp hn1
  rw [compare_reprFree bs1 hn1, compare_reprFree bs2 hn2]
  rw [sortItems_keys, sortItems_keys, sortKeys_perm_eq (build_keys_perm hperm)]
  apply List.filterMap_congr
  intro key _
  exact canonFinding_perm hperm key

/-- Counterexample for claim C6 as stated: the same associations in a
different order produce a different set of findings even after
forgetting the internal ordering of present_in and missing_from,
because the representative action string changes. -/
theorem c6_counterexample :
    exBoundaries6a.Perm exBoundaries6b ∧
      ∃ v, v ∈ (compare_boundaries exBoundaries6a).map Finding.orderFree ∧
        v ∉ (compare_boundaries exBoundaries6b).map Finding.orderFree := by
  constructor
  · exact List.Perm.swap _ _ _
  · refine ⟨Finding.orderFree (Finding.mk "S3:Get".toList "s3:Get".toList
      "Allow".toList ["x".toList, "y".toList] ["z".toList] "medium".toList []),
      by decide, by decide⟩

/-- Witness for the amended C6 at the concrete reordered inputs. -/
theorem c6_witness :
    (compare_boundaries exBoundaries6a).map Finding.reprFree =
      (compare_boundaries exBoundaries6b).map Finding.reprFree :=
  c6_order_invariance_up_to_representative exBoundaries6a exBoundaries6b
    (List.Perm.swap _ _ _) (by decide)

end NuonExtPolicies
